import Mathlib

/-!
Shallow embedding of the brain-atlas-viewer cache-to-index scripts
(scripts/generate_dandiset_assets.py and scripts/rescan_all_subjects.py).

Modelling conventions:
- Python dicts (insertion-ordered) are association lists; assignment is
  update-in-place-or-append (upsert); defaultdict grouping appends to the
  value list of the first pair with the given key.
- Python sorted() is a stable sort, modelled by a stable insertion sort.
- Python string comparison is lexicographic on code points, modelled by
  charsLt on the character lists.
- The persisted jsonl log is a list of lines, each either blank or one
  already-structured record (JSON parsing of well-formed records is treated
  as the identity; json.loads of a blank line is a parse error).
- The external collaborators of rescan_all_subjects (get_nwb_assets_paged,
  process_asset and its lookup tables) are passed in as explicit functions;
  a labeling failure is an Except error.
-/

/-- One region-match record, the triples stored under a location key of
matched_locations. -/
structure RegionMatch where
  id : Nat
  acronym : String
  name : String
deriving DecidableEq, Repr

/-- One parsed line of label_cache.jsonl. matched_locations is kept in the
stored (insertion) order of its keys. -/
structure CacheEntry where
  dandiset_id : String
  asset_id : String
  path : String
  status : String
  matched_locations : List (String × List RegionMatch)
deriving DecidableEq, Repr

/-- Output record of the generated index. -/
structure IndexAssetRecord where
  path : String
  asset_id : String
  regions : List RegionMatch
deriving DecidableEq, Repr

/-- FILTER_IDS = {997, 8} (root, grey), identical in both scripts. -/
def FILTER_IDS : List Nat := [997, 8]

/-- Python lexicographic comparison of two strings as character lists
(code-point order). -/
def charsLt : List Char → List Char → Bool
  | [], [] => false
  | [], _ :: _ => true
  | _ :: _, [] => false
  | a :: as, b :: bs =>
    if a.toNat < b.toNat then true
    else if b.toNat < a.toNat then false
    else charsLt as bs

/-- Python operator < on strings. -/
def strLt (a b : String) : Bool := charsLt a.data b.data

/-- Python operator <= on strings. -/
def strLe (a b : String) : Bool := !(strLt b a)

/-- Python str.split(sep) for a one-character separator, on character lists. -/
def splitCh (sep : Char) : List Char → List (List Char)
  | [] => [[]]
  | c :: rest =>
    if c = sep then [] :: splitCh sep rest
    else
      match splitCh sep rest with
      | [] => [[c]]
      | g :: gs => (c :: g) :: gs

/-- Python str.split(sep) on strings. -/
def pySplit (sep : Char) (s : String) : List String :=
  (splitCh sep s.data).map String.mk

/-- extract_subject (scripts/generate_dandiset_assets.py lines 20-23):
parts = path.split("/"); parts[0] if len(parts) > 1 else path.split("_")[0].
split never returns an empty list, so indexing with headD is total. -/
def extract_subject (path : String) : String :=
  let parts := pySplit '/' path
  if parts.length > 1 then parts.headD "" else (pySplit '_' path).headD ""

/-- extract_subject (scripts/rescan_all_subjects.py lines 31-33), textually
identical to the one in generate_dandiset_assets.py. -/
def rescan_extract_subject (path : String) : String :=
  let parts := pySplit '/' path
  if parts.length > 1 then parts.headD "" else (pySplit '_' path).headD ""

/-- Lookup of the first pair with the given key (Python dict read). -/
def alookup [DecidableEq κ] (k : κ) : List (κ × ν) → Option ν
  | [] => none
  | p :: rest => if p.1 = k then some p.2 else alookup k rest

/-- Python dict assignment d[k] = v: replace the value of the first pair with
this key in place, or append a new pair at the end. -/
def upsert [DecidableEq κ] (k : κ) (v : ν) : List (κ × ν) → List (κ × ν)
  | [] => [(k, v)]
  | p :: rest => if p.1 = k then (k, v) :: rest else p :: upsert k v rest

/-- Update the value at a key with f (creating it from f none if absent),
keeping insertion order. -/
def updGroup [DecidableEq κ] (k : κ) (f : Option ν → ν) : List (κ × ν) → List (κ × ν)
  | [] => [(k, f none)]
  | p :: rest => if p.1 = k then (k, f (some p.2)) :: rest else p :: updGroup k f rest

/-- defaultdict(list): g[k].append(v). -/
def appendGroup1 (k : String) (v : β) (g : List (String × List β)) :
    List (String × List β) :=
  updGroup k (fun o => o.getD [] ++ [v]) g

/-- defaultdict(lambda: defaultdict(list)): g[d][s].append(v). -/
def appendGroup2 (d s : String) (v : β)
    (g : List (String × List (String × List β))) :
    List (String × List (String × List β)) :=
  updGroup d (fun o => appendGroup1 s v (o.getD [])) g

/-- Stable insertion into a sorted list: a goes before the first element not
strictly below it, so a later-inserted equal element keeps its place. -/
def insertSorted (lt : α → α → Bool) (a : α) : List α → List α
  | [] => [a]
  | b :: bs => if lt b a then b :: insertSorted lt a bs else a :: b :: bs

/-- Python sorted(): a stable sort by the strict comparison lt. -/
def sortBy (lt : α → α → Bool) (xs : List α) : List α :=
  xs.foldr (insertSorted lt) []

/-- First-occurrence deduplication of a key list (models iterating over a set
built from the list, then sorting: after sortBy the seen-order is irrelevant). -/
def dedupF (seen : List String) : List String → List String
  | [] => []
  | k :: ks => if k ∈ seen then dedupF seen ks else k :: dedupF (k :: seen) ks

/-- One line of the persisted label_cache.jsonl: blank, or one record. -/
inductive LogLine where
  | blank
  | record (e : CacheEntry)
deriving DecidableEq, Repr

/-- Failures of the standalone script when reading the log. -/
inductive LoadError where
  | fileNotFound
  | parseError
deriving DecidableEq, Repr

/-- generate_dandiset_assets.py lines 38-46: collect all region matches over
matched_locations, dropping ids in FILTER_IDS, in stored order. -/
def collectRegions (matched : List (String × List RegionMatch)) : List RegionMatch :=
  matched.foldl (fun acc p =>
    p.2.foldl (fun acc2 m => if m.id ∈ FILTER_IDS then acc2 else acc2 ++ [m]) acc) []

/-- generate_dandiset_assets.py lines 48-54: deduplicate by id, keeping the
first occurrence (seen is a set, modelled as a list of ids). -/
def dedupById (regions : List RegionMatch) : List RegionMatch :=
  (regions.foldl
    (fun st m => if m.id ∈ st.1 then st else (m.id :: st.1, st.2 ++ [m]))
    (([] : List Nat), ([] : List RegionMatch))).2

/-- rescan_all_subjects.py lines 136-146: single-pass filter and
deduplication of the region matches. -/
def rescan_regions (matched : List (String × List RegionMatch)) : List RegionMatch :=
  (matched.foldl (fun st p =>
    p.2.foldl (fun st2 m =>
      if m.id ∉ FILTER_IDS ∧ m.id ∉ st2.1 then (m.id :: st2.1, st2.2 ++ [m]) else st2) st)
    (([] : List Nat), ([] : List RegionMatch))).2

/-- Claim-side description of the region list (spec section 4.2 step 3):
walk the flattened matches in order with the set of already-seen ids,
include a record the first time its id is seen and only if the id is not in
the exclusion set, skip subsequent occurrences. -/
def dedupFilter (seen : List Nat) : List RegionMatch → List RegionMatch
  | [] => []
  | m :: ms =>
    if m.id ∈ FILTER_IDS ∨ m.id ∈ seen then dedupFilter seen ms
    else m :: dedupFilter (m.id :: seen) ms

/-- Claim-side region list of an entry: matches taken in location-key order
then match order, first occurrence of each id, exclusion set removed. -/
def spec_regions (matched : List (String × List RegionMatch)) : List RegionMatch :=
  dedupFilter [] (matched.flatMap Prod.snd)

/-- generate_dandiset_assets.py lines 56-61: the record stored per line
(path, asset_id, deduplicated regions). -/
def gen_record (e : CacheEntry) : IndexAssetRecord :=
  { path := e.path, asset_id := e.asset_id,
    regions := dedupById (collectRegions e.matched_locations) }

/-- rescan_all_subjects.py lines 147-151: the record emitted for the selected
entry. -/
def rescan_record (e : CacheEntry) : IndexAssetRecord :=
  { path := e.path, asset_id := e.asset_id,
    regions := rescan_regions e.matched_locations }

/-- Two-level grouping dandiset -> subject -> list of values, built by a
left fold in input order (defaultdict-of-defaultdict-of-list). -/
def groupFold (kd ks : α → String) (val : α → β) (items : List α) :
    List (String × List (String × List β)) :=
  items.foldl (fun acc x => appendGroup2 (kd x) (ks x) (val x) acc) []

/-- Shared output stage of both scripts: for each dandiset in sorted key
order, for each subject in sorted key order, sort that subject's values by
path, keep the first, and emit its record. -/
def indexOfGrouped (pathOf : β → String) (toRec : β → IndexAssetRecord)
    (grouped : List (String × List (String × List β))) :
    List (String × List IndexAssetRecord) :=
  (sortBy (fun p q => strLt p.1 q.1) grouped).map (fun p =>
    (p.1, (sortBy (fun p q => strLt p.1 q.1) p.2).flatMap (fun q =>
      ((sortBy (fun a b => strLt (pathOf a) (pathOf b)) q.2).take 1).map toRec)))

/-- Group, then select and emit: common shape of generate_dandiset_assets.py
lines 26-72 and rescan_all_subjects.py lines 121-152. -/
def buildIndex (kd ks : α → String) (val : α → β) (pathOf : β → String)
    (toRec : β → IndexAssetRecord) (items : List α) :
    List (String × List IndexAssetRecord) :=
  indexOfGrouped pathOf toRec (groupFold kd ks val items)

/-- generate_dandiset_assets.py lines 30-36: iterate the raw lines of the log
and json.loads each one; a blank line is not valid JSON, so it raises. -/
def parseAllLines : List LogLine → Except LoadError (List CacheEntry)
  | [] => .ok []
  | .blank :: _ => .error .parseError
  | .record e :: rest => (parseAllLines rest).map (fun es => e :: es)

/-- generate_dandiset_assets.py line 30: open(LABEL_CACHE) raises when the
file does not exist; otherwise every line is parsed. -/
def generate_read (log : Option (List LogLine)) : Except LoadError (List CacheEntry) :=
  match log with
  | none => .error .fileNotFound
  | some lines => parseAllLines lines

/-- generate_dandiset_assets.py lines 26-72: group every line's record by
(dandiset_id, subject), then per dandiset (sorted) and subject (sorted) keep
the record with the smallest path. -/
def generate_index (entries : List CacheEntry) : List (String × List IndexAssetRecord) :=
  buildIndex (fun e => e.dandiset_id) (fun e => extract_subject e.path) gen_record
    (fun r => r.path) id entries

/-- The whole standalone script: read the log, then build the index. -/
def generate_main (log : Option (List LogLine)) :
    Except LoadError (List (String × List IndexAssetRecord)) :=
  (generate_read log).map generate_index

/-- The cache key of an entry as used by load_label_cache. -/
def cacheKey (e : CacheEntry) : String × String := (e.dandiset_id, e.asset_id)

/-- load_label_cache (rescan_all_subjects.py lines 36-47): missing file gives
an empty mapping; blank lines are skipped; each remaining line is one entry,
assigned into the dict keyed by (dandiset_id, asset_id). -/
def load_label_cache (log : Option (List LogLine)) :
    List ((String × String) × CacheEntry) :=
  match log with
  | none => []
  | some lines =>
    lines.foldl (fun cache l =>
      match l with
      | .blank => cache
      | .record e => upsert (cacheKey e) e cache) []

/-- One asset of the external listing (get_nwb_assets_paged element). -/
structure AssetListing where
  asset_id : String
  path : String
deriving DecidableEq, Repr

/-- State threaded through a synchronizer run: the in-memory cache table, the
entries appended to the log, the labeling invocations made (dandiset,
subject, asset), and the new-entry counter. -/
structure SyncState where
  label_cache : List ((String × String) × CacheEntry)
  appended : List CacheEntry
  calls : List (String × String × AssetListing)
  total_new : Nat
deriving DecidableEq, Repr

/-- rescan_all_subjects.py lines 87-113, the body for one subject: sort the
subject's listed assets by path; if any listed asset's (ds_id, asset_id) key
is already in the cache, skip; otherwise invoke the labeling collaborator on
the first asset, and on success append the result to the log and store it in
the table; on failure leave both unchanged. The empty-group case is
unreachable (groups are built nonempty). -/
def processSubject (label : String → AssetListing → Except String CacheEntry)
    (ds_id subj : String) (group : List AssetListing) (st : SyncState) : SyncState :=
  let assets := sortBy (fun a b => strLt a.path b.path) group
  let have_cached := assets.any (fun a => (alookup (ds_id, a.asset_id) st.label_cache).isSome)
  if have_cached then st
  else
    match assets with
    | [] => st
    | asset :: _ =>
      let st1 : SyncState := { st with calls := st.calls ++ [(ds_id, subj, asset)] }
      match label ds_id asset with
      | .ok result =>
        { st1 with
          label_cache := upsert (ds_id, asset.asset_id) result st1.label_cache,
          appended := st1.appended ++ [result],
          total_new := st1.total_new + 1 }
      | .error _ => st1

/-- rescan_all_subjects.py lines 71-113 for one dandiset: fetch the listing,
group it by subject, and process the subjects in sorted key order. -/
def processDandiset (label : String → AssetListing → Except String CacheEntry)
    (ds_id : String) (listing : List AssetListing) (st : SyncState) : SyncState :=
  let subject_assets :=
    listing.foldl (fun acc a => appendGroup1 (rescan_extract_subject a.path) a acc) []
  (sortBy (fun p q => strLt p.1 q.1) subject_assets).foldl
    (fun st2 p => processSubject label ds_id p.1 p.2 st2) st

/-- rescan_all_subjects.py lines 121-152: regenerate the index from the cache
table, grouping each table value by the key's dandiset id and the entry
path's subject. -/
def rescan_regen (cache : List ((String × String) × CacheEntry)) :
    List (String × List IndexAssetRecord) :=
  buildIndex (fun kv => kv.1.1) (fun kv => rescan_extract_subject kv.2.path)
    (fun kv => kv.2) (fun e => e.path) rescan_record cache

/-- rescan_all_subjects.py main (lines 55-160), with the external listing and
labeling collaborators passed in explicitly: load the cache, process each
known dandiset, then regenerate the output index from the final table.
Returns the final state and the regenerated index. -/
def rescan_main (listing : String → List AssetListing)
    (label : String → AssetListing → Except String CacheEntry)
    (log : Option (List LogLine)) :
    SyncState × List (String × List IndexAssetRecord) :=
  let cache0 := load_label_cache log
  let st0 : SyncState := { label_cache := cache0, appended := [], calls := [], total_new := 0 }
  let ds_ids := sortBy strLt (dedupF [] (cache0.map (fun kv => kv.1.1)))
  let final := ds_ids.foldl (fun st ds => processDandiset label ds (listing ds) st) st0
  (final, rescan_regen final.label_cache)

/-! Lemmas about the region filter and deduplication pipelines. -/

/-- Keep a match whose id is not in the exclusion set. -/
def keepRegion (m : RegionMatch) : Bool := decide (m.id ∉ FILTER_IDS)

/-- Seen-ids set after a dedupFilter pass. -/
def dfSeen (seen : List Nat) : List RegionMatch → List Nat
  | [] => seen
  | m :: ms =>
    if m.id ∈ FILTER_IDS ∨ m.id ∈ seen then dfSeen seen ms
    else dfSeen (m.id :: seen) ms

/-- Recursive form of the generate-script deduplication. -/
def dedupSeen (seen : List Nat) : List RegionMatch → List RegionMatch
  | [] => []
  | m :: ms => if m.id ∈ seen then dedupSeen seen ms else m :: dedupSeen (m.id :: seen) ms

/-- Seen-ids set after a dedupSeen pass. -/
def dfSeenPlain (seen : List Nat) : List RegionMatch → List Nat
  | [] => seen
  | m :: ms => if m.id ∈ seen then dfSeenPlain seen ms else dfSeenPlain (m.id :: seen) ms

/-- Content of the (d, s) group in a two-level grouping. -/
def group2get (d s : String) (g : List (String × List (String × List β))) : List β :=
  (alookup s ((alookup d g).getD [])).getD []

/-! Transport of the build along a value map: used to compare the two scripts. -/

/-- Map the stored values of a two-level grouping. -/
def mapGrouped (φ : β → γ) (g : List (String × List (String × List β))) :
    List (String × List (String × List γ)) :=
  g.map (fun p => (p.1, p.2.map (fun q => (q.1, q.2.map φ))))

/-- Claim-side: the last record with the given key in the log, if any (later
lines take priority). -/
def lastRecord (k : String × String) : List LogLine → Option CacheEntry
  | [] => none
  | l :: rest =>
    match lastRecord k rest with
    | some e => some e
    | none =>
      match l with
      | .blank => none
      | .record e => if cacheKey e = k then some e else none

/-! Concrete fixtures used by witnesses and counterexamples. -/

def fxRegionGrey : RegionMatch := { id := 8, acronym := "grey", name := "grey" }

def fxRegionCTX : RegionMatch := { id := 315, acronym := "CTX", name := "Cortex" }

def fxRegionCB : RegionMatch := { id := 512, acronym := "CB", name := "Cerebellum" }

def fxA : CacheEntry :=
  { dandiset_id := "000001", asset_id := "y", path := "sub-01/a.nwb", status := "ok",
    matched_locations := [("l", [fxRegionCTX])] }

def fxB : CacheEntry :=
  { dandiset_id := "000001", asset_id := "x", path := "sub-01/b.nwb", status := "ok",
    matched_locations := [("loc1", [fxRegionGrey, fxRegionCTX]),
                          ("loc2", [fxRegionCTX, fxRegionCB])] }

def fxD1 : CacheEntry :=
  { dandiset_id := "1", asset_id := "x", path := "p", status := "",
    matched_locations := [("l", [fxRegionCTX])] }

def fxD2 : CacheEntry :=
  { dandiset_id := "1", asset_id := "x", path := "p", status := "",
    matched_locations := [("l", [fxRegionCB])] }

def fxC0 : CacheEntry :=
  { dandiset_id := "d", asset_id := "X", path := "sub-01/old.nwb", status := "ok",
    matched_locations := [] }

def fxC4 : CacheEntry :=
  { dandiset_id := "d", asset_id := "Y", path := "other_x.nwb", status := "ok",
    matched_locations := [] }

def fxListY : AssetListing := { asset_id := "Y", path := "sub-01/new.nwb" }

def fxListY2 : AssetListing := { asset_id := "Y", path := "sub-01/a.nwb" }

def fxErrLabel : String → AssetListing → Except String CacheEntry :=
  fun _ _ => Except.error "boom"

def fxStCached : SyncState :=
  { label_cache := [(("d", "Y"), fxC4)], appended := [], calls := [], total_new := 0 }

def fxStEmpty : SyncState :=
  { label_cache := [], appended := [], calls := [], total_new := 0 }

def fxStWithC4 : SyncState :=
  { label_cache := [(("d", "X"), fxC4)], appended := [], calls := [], total_new := 0 }

/-! Order lemmas for the Python string comparison. -/

theorem charsLt_irrefl : ∀ l : List Char, charsLt l l = false := by
  intro l
  induction l with
  | nil => rfl
  | cons x xs ih => simp [charsLt, ih]

theorem charsLt_asymm : ∀ a b : List Char, charsLt a b = true → charsLt b a = false := by
  intro a
  induction a with
  | nil =>
    intro b h
    cases b with
    | nil => simp [charsLt] at h
    | cons y ys => rfl
  | cons x xs ih =>
    intro b h
    cases b with
    | nil => simp [charsLt] at h
    | cons y ys =>
      simp only [charsLt] at h ⊢
      rcases Nat.lt_trichotomy x.toNat y.toNat with h1 | h1 | h1
      · simp [h1, Nat.lt_asymm h1]
      · simp only [h1, Nat.lt_irrefl, if_false] at h ⊢
        exact ih ys h
      · simp [h1, Nat.lt_asymm h1] at h

theorem charsLt_neg_trans :
    ∀ a b c : List Char, charsLt b a = false → charsLt c b = false → charsLt c a = false := by
  intro a
  induction a with
  | nil =>
    intro b c h1 h2
    cases c with
    | nil => rfl
    | cons z zs => rfl
  | cons x xs ih =>
    intro b c h1 h2
    cases b with
    | nil => simp [charsLt] at h1
    | cons y ys =>
      cases c with
      | nil => simp [charsLt] at h2
      | cons z zs =>
        simp only [charsLt] at h1 h2 ⊢
        by_cases hyx : y.toNat < x.toNat
        · simp [hyx] at h1
        · by_cases hzy : z.toNat < y.toNat
          · simp [hzy] at h2
          · by_cases hxy : x.toNat < y.toNat
            · have hxz : x.toNat < z.toNat := by omega
              simp [hxz, Nat.lt_asymm hxz]
            · by_cases hyz : y.toNat < z.toNat
              · have hxz : x.toNat < z.toNat := by omega
                simp [hxz, Nat.lt_asymm hxz]
              · have h1a : charsLt ys xs = false := by simpa [hyx, hxy] using h1
                have h2a : charsLt zs ys = false := by simpa [hzy, hyz] using h2
                have g1 : ¬ z.toNat < x.toNat := by omega
                have g2 : ¬ x.toNat < z.toNat := by omega
                simp [g1, g2, ih ys zs h1a h2a]

theorem charsLt_eq_of_not_lt :
    ∀ a b : List Char, charsLt a b = false → charsLt b a = false → a = b := by
  intro a
  induction a with
  | nil =>
    intro b h1 h2
    cases b with
    | nil => rfl
    | cons y ys => simp [charsLt] at h1
  | cons x xs ih =>
    intro b h1 h2
    cases b with
    | nil => simp [charsLt] at h2
    | cons y ys =>
      simp only [charsLt] at h1 h2
      rcases Nat.lt_trichotomy x.toNat y.toNat with h3 | h3 | h3
      · simp [h3] at h1
      · have hxy : x = y := by
          have hv : x.val = y.val := UInt32.toNat.inj h3
          exact Char.eq_of_val_eq hv
        subst hxy
        have g : ¬ x.toNat < x.toNat := Nat.lt_irrefl _
        simp only [g, if_false] at h1 h2
        rw [ih ys h1 h2]
      · simp [h3, Nat.lt_asymm h3] at h2

theorem strLt_irrefl (a : String) : strLt a a = false := charsLt_irrefl a.data

theorem strLt_asymm {a b : String} (h : strLt a b = true) : strLt b a = false :=
  charsLt_asymm a.data b.data h

theorem strLt_neg_trans {a b c : String} (h1 : strLt b a = false) (h2 : strLt c b = false) :
    strLt c a = false :=
  charsLt_neg_trans a.data b.data c.data h1 h2

theorem strLt_eq_of_not_lt {a b : String} (h1 : strLt a b = false) (h2 : strLt b a = false) :
    a = b := by
  cases a with
  | mk da =>
    cases b with
    | mk db =>
      have : da = db := charsLt_eq_of_not_lt da db h1 h2
      rw [this]

theorem strLt_total (a b : String) : strLt a b = true ∨ strLt b a = true ∨ a = b := by
  cases ha : strLt a b
  · cases hb : strLt b a
    · exact Or.inr (Or.inr (strLt_eq_of_not_lt ha hb))
    · exact Or.inr (Or.inl rfl)
  · exact Or.inl rfl

/-! Lemmas about the stable sort. -/

theorem sortBy_nil (lt : α → α → Bool) : sortBy lt [] = [] := rfl

theorem sortBy_cons (lt : α → α → Bool) (x : α) (xs : List α) :
    sortBy lt (x :: xs) = insertSorted lt x (sortBy lt xs) := rfl

theorem mem_insertSorted (lt : α → α → Bool) (a x : α) :
    ∀ l : List α, (x ∈ insertSorted lt a l ↔ x = a ∨ x ∈ l) := by
  intro l
  induction l with
  | nil => simp [insertSorted]
  | cons b bs ih =>
    simp only [insertSorted]
    cases h : lt b a with
    | true =>
      simp only [if_true, List.mem_cons, ih]
      tauto
    | false =>
      simp only [Bool.false_eq_true, if_false, List.mem_cons]

theorem insertSorted_perm (lt : α → α → Bool) (a : α) :
    ∀ l : List α, List.Perm (insertSorted lt a l) (a :: l) := by
  intro l
  induction l with
  | nil => simp [insertSorted]
  | cons b bs ih =>
    simp only [insertSorted]
    by_cases h : lt b a = true
    · simp only [h, if_true]
      exact (ih.cons b).trans (List.Perm.swap a b bs)
    · simp [h]

theorem sortBy_perm (lt : α → α → Bool) :
    ∀ xs : List α, List.Perm (sortBy lt xs) xs := by
  intro xs
  induction xs with
  | nil => simp [sortBy]
  | cons x xs ih =>
    rw [sortBy_cons]
    exact (insertSorted_perm lt x (sortBy lt xs)).trans (ih.cons x)

theorem mem_sortBy (lt : α → α → Bool) (x : α) (xs : List α) :
    x ∈ sortBy lt xs ↔ x ∈ xs :=
  (sortBy_perm lt xs).mem_iff

theorem sortBy_any (lt : α → α → Bool) (p : α → Bool) (xs : List α) :
    (sortBy lt xs).any p = xs.any p := by
  rw [Bool.eq_iff_iff]
  simp [List.any_eq_true, mem_sortBy]

theorem sortBy_nodup (lt : α → α → Bool) (xs : List α) (h : xs.Nodup) :
    (sortBy lt xs).Nodup :=
  (sortBy_perm lt xs).nodup_iff.mpr h

theorem pairwise_insertSorted (lt : α → α → Bool)
    (hasym : ∀ a b, lt a b = true → lt b a = false)
    (hneg : ∀ a b c, lt b a = false → lt c b = false → lt c a = false)
    (a : α) :
    ∀ l : List α, l.Pairwise (fun u v => lt v u = false) →
      (insertSorted lt a l).Pairwise (fun u v => lt v u = false) := by
  intro l
  induction l with
  | nil =>
    intro _
    simp [insertSorted]
  | cons b bs ih =>
    intro hp
    rw [List.pairwise_cons] at hp
    obtain ⟨hb, hbs⟩ := hp
    simp only [insertSorted]
    cases h : lt b a with
    | true =>
      simp only [if_true]
      rw [List.pairwise_cons]
      refine ⟨?_, ih hbs⟩
      intro x hx
      rcases (mem_insertSorted lt a x bs).mp hx with rfl | hx2
      · exact hasym b x h
      · exact hb x hx2
    | false =>
      simp only [Bool.false_eq_true, if_false]
      rw [List.pairwise_cons]
      refine ⟨?_, List.Pairwise.cons hb hbs⟩
      intro x hx
      rcases List.mem_cons.mp hx with rfl | hx2
      · exact h
      · exact hneg a b x h (hb x hx2)

theorem pairwise_sortBy (lt : α → α → Bool)
    (hasym : ∀ a b, lt a b = true → lt b a = false)
    (hneg : ∀ a b c, lt b a = false → lt c b = false → lt c a = false)
    (xs : List α) :
    (sortBy lt xs).Pairwise (fun u v => lt v u = false) := by
  induction xs with
  | nil => simp [sortBy]
  | cons x xs ih =>
    rw [sortBy_cons]
    exact pairwise_insertSorted lt hasym hneg x (sortBy lt xs) ih

theorem sortBy_head_min (lt : α → α → Bool)
    (hirr : ∀ a, lt a a = false)
    (hasym : ∀ a b, lt a b = true → lt b a = false)
    (hneg : ∀ a b c, lt b a = false → lt c b = false → lt c a = false)
    {xs : List α} {x : α} {l : List α} (h : sortBy lt xs = x :: l) :
    ∀ y ∈ xs, lt y x = false := by
  intro y hy
  have hmem : y ∈ x :: l := h ▸ (mem_sortBy lt y xs).mpr hy
  rcases List.mem_cons.mp hmem with rfl | hy2
  · exact hirr y
  · have hp := pairwise_sortBy lt hasym hneg xs
    rw [h, List.pairwise_cons] at hp
    exact hp.1 y hy2

theorem insertSorted_map (f : α → β) (lta : α → α → Bool) (ltb : β → β → Bool)
    (hcomp : ∀ a b, ltb (f a) (f b) = lta a b) (a : α) :
    ∀ l : List α, insertSorted ltb (f a) (l.map f) = (insertSorted lta a l).map f := by
  intro l
  induction l with
  | nil => simp [insertSorted]
  | cons b bs ih =>
    simp only [List.map_cons, insertSorted, hcomp]
    by_cases h : lta b a = true
    · simp [h, ih]
    · simp [h]

theorem sortBy_map (f : α → β) (lta : α → α → Bool) (ltb : β → β → Bool)
    (hcomp : ∀ a b, ltb (f a) (f b) = lta a b) :
    ∀ xs : List α, sortBy ltb (xs.map f) = (sortBy lta xs).map f := by
  intro xs
  induction xs with
  | nil => simp [sortBy]
  | cons x xs ih =>
    rw [List.map_cons, sortBy_cons, sortBy_cons, ih]
    exact insertSorted_map f lta ltb hcomp x (sortBy lta xs)

theorem collectRegions_inner (ms : List RegionMatch) :
    ∀ acc, ms.foldl (fun acc2 m => if m.id ∈ FILTER_IDS then acc2 else acc2 ++ [m]) acc
      = acc ++ ms.filter keepRegion := by
  induction ms with
  | nil => simp
  | cons m ms ih =>
    intro acc
    simp only [List.foldl_cons, List.filter_cons]
    by_cases h : m.id ∈ FILTER_IDS
    · have hk : keepRegion m = false := by simp [keepRegion, h]
      simp only [if_pos h, hk, Bool.false_eq_true, if_false]
      exact ih acc
    · have hk : keepRegion m = true := by simp [keepRegion, h]
      simp only [if_neg h, hk, if_true]
      rw [ih (acc ++ [m]), List.append_assoc]
      rfl

theorem collectRegions_eq (matched : List (String × List RegionMatch)) :
    collectRegions matched = (matched.flatMap Prod.snd).filter keepRegion := by
  have key : ∀ acc, matched.foldl
      (fun acc p => p.2.foldl (fun acc2 m => if m.id ∈ FILTER_IDS then acc2 else acc2 ++ [m]) acc) acc
      = acc ++ (matched.flatMap Prod.snd).filter keepRegion := by
    induction matched with
    | nil => simp
    | cons p ps ih =>
      intro acc
      simp only [List.foldl_cons, List.flatMap_cons, List.filter_append]
      rw [collectRegions_inner, ih, List.append_assoc]
  simpa [collectRegions] using key []

theorem dedupById_go (rs : List RegionMatch) :
    ∀ seen out, (rs.foldl
        (fun st m => if m.id ∈ st.1 then st else (m.id :: st.1, st.2 ++ [m]))
        (seen, out))
      = (dfSeenPlain seen rs, out ++ dedupSeen seen rs) := by
  induction rs with
  | nil => simp [dedupSeen, dfSeenPlain]
  | cons m ms ih =>
    intro seen out
    simp only [List.foldl_cons, dedupSeen, dfSeenPlain]
    by_cases h : m.id ∈ seen
    · simp only [if_pos h]
      exact ih seen out
    · simp only [if_neg h]
      rw [ih (m.id :: seen) (out ++ [m]), List.append_assoc]
      rfl

theorem dedupById_eq (rs : List RegionMatch) : dedupById rs = dedupSeen [] rs := by
  simp [dedupById, dedupById_go rs [] []]

theorem dedupSeen_filter (rs : List RegionMatch) :
    ∀ seen, dedupSeen seen (rs.filter keepRegion) = dedupFilter seen rs := by
  induction rs with
  | nil => intro seen; rfl
  | cons m ms ih =>
    intro seen
    simp only [List.filter_cons, dedupFilter]
    by_cases hf : m.id ∈ FILTER_IDS
    · have hk : keepRegion m = false := by simp [keepRegion, hf]
      simp only [hk, Bool.false_eq_true, if_false, if_pos (Or.inl hf)]
      exact ih seen
    · have hk : keepRegion m = true := by simp [keepRegion, hf]
      simp only [hk, if_true, dedupSeen]
      by_cases hs : m.id ∈ seen
      · simp only [if_pos hs, if_pos (Or.inr hs)]
        exact ih seen
      · have hor : ¬ (m.id ∈ FILTER_IDS ∨ m.id ∈ seen) := by
          intro hc
          rcases hc with hc | hc
          · exact hf hc
          · exact hs hc
        simp only [if_neg hs, if_neg hor]
        rw [ih (m.id :: seen)]

theorem gen_regions_eq_spec (matched : List (String × List RegionMatch)) :
    dedupById (collectRegions matched) = spec_regions matched := by
  rw [dedupById_eq, collectRegions_eq, spec_regions, dedupSeen_filter]

theorem dedupFilter_append (l1 l2 : List RegionMatch) :
    ∀ seen, dedupFilter seen (l1 ++ l2)
      = dedupFilter seen l1 ++ dedupFilter (dfSeen seen l1) l2 := by
  induction l1 with
  | nil => intro seen; rfl
  | cons m ms ih =>
    intro seen
    simp only [List.cons_append, dedupFilter, dfSeen]
    by_cases h : m.id ∈ FILTER_IDS ∨ m.id ∈ seen
    · simp only [if_pos h]
      exact ih seen
    · simp only [if_neg h, List.cons_append]
      exact congrArg (List.cons m) (ih (m.id :: seen))

theorem rescan_inner_step (ms : List RegionMatch) :
    ∀ seen out, ms.foldl
        (fun st2 m => if m.id ∉ FILTER_IDS ∧ m.id ∉ st2.1 then (m.id :: st2.1, st2.2 ++ [m]) else st2)
        (seen, out)
      = (dfSeen seen ms, out ++ dedupFilter seen ms) := by
  induction ms with
  | nil => intro seen out; simp [dfSeen, dedupFilter]
  | cons m ms ih =>
    intro seen out
    simp only [List.foldl_cons, dfSeen, dedupFilter]
    by_cases h : m.id ∈ FILTER_IDS ∨ m.id ∈ seen
    · have hc : ¬ (m.id ∉ FILTER_IDS ∧ m.id ∉ seen) := by tauto
      simp only [if_neg hc, if_pos h]
      exact ih seen out
    · have hc : m.id ∉ FILTER_IDS ∧ m.id ∉ seen := by tauto
      simp only [if_pos hc, if_neg h]
      rw [ih (m.id :: seen) (out ++ [m]), List.append_assoc]
      rfl

theorem rescan_regions_eq_spec (matched : List (String × List RegionMatch)) :
    rescan_regions matched = spec_regions matched := by
  have key : ∀ seen out, matched.foldl
      (fun st p => p.2.foldl
        (fun st2 m => if m.id ∉ FILTER_IDS ∧ m.id ∉ st2.1 then (m.id :: st2.1, st2.2 ++ [m]) else st2) st)
      (seen, out)
      = (dfSeen seen (matched.flatMap Prod.snd), out ++ dedupFilter seen (matched.flatMap Prod.snd)) := by
    induction matched with
    | nil => intro seen out; simp [dfSeen, dedupFilter]
    | cons p ps ih =>
      intro seen out
      simp only [List.foldl_cons, List.flatMap_cons]
      rw [rescan_inner_step, ih, dedupFilter_append, ← List.append_assoc]
      have hseen : ∀ l1 l2 s, dfSeen s (l1 ++ l2) = dfSeen (dfSeen s l1) l2 := by
        intro l1
        induction l1 with
        | nil => intro l2 s; rfl
        | cons x xs ihx =>
          intro l2 s
          simp only [List.cons_append, dfSeen]
          by_cases hx : x.id ∈ FILTER_IDS ∨ x.id ∈ s
          · simp only [if_pos hx]
            exact ihx l2 s
          · simp only [if_neg hx]
            exact ihx l2 (x.id :: s)
      rw [hseen]
  simp [rescan_regions, key [] [], spec_regions]

theorem mem_dedupFilter {m : RegionMatch} (rs : List RegionMatch) :
    ∀ seen, m ∈ dedupFilter seen rs → m.id ∉ FILTER_IDS ∧ m.id ∉ seen := by
  induction rs with
  | nil => intro seen h; simp [dedupFilter] at h
  | cons x xs ih =>
    intro seen h
    simp only [dedupFilter] at h
    by_cases hx : x.id ∈ FILTER_IDS ∨ x.id ∈ seen
    · rw [if_pos hx] at h
      exact ih seen h
    · rw [if_neg hx] at h
      rcases List.mem_cons.mp h with rfl | h2
      · exact ⟨fun hc => hx (Or.inl hc), fun hc => hx (Or.inr hc)⟩
      · have := ih (x.id :: seen) h2
        exact ⟨this.1, fun hc => this.2 (List.mem_cons_of_mem _ hc)⟩

theorem dedupFilter_ids_nodup (rs : List RegionMatch) :
    ∀ seen, ((dedupFilter seen rs).map RegionMatch.id).Nodup := by
  induction rs with
  | nil => intro seen; simp [dedupFilter]
  | cons x xs ih =>
    intro seen
    simp only [dedupFilter]
    by_cases hx : x.id ∈ FILTER_IDS ∨ x.id ∈ seen
    · rw [if_pos hx]
      exact ih seen
    · rw [if_neg hx]
      simp only [List.map_cons, List.nodup_cons]
      refine ⟨?_, ih (x.id :: seen)⟩
      intro hc
      rcases List.mem_map.mp hc with ⟨y, hy, hyid⟩
      have := (mem_dedupFilter xs (x.id :: seen) hy).2
      exact this (hyid ▸ List.mem_cons_self _ _)

/-! Lemmas about association-list lookup, update and grouping. -/

theorem alookup_updGroup_self [DecidableEq κ] (k : κ) (f : Option ν → ν) :
    ∀ g : List (κ × ν), alookup k (updGroup k f g) = some (f (alookup k g)) := by
  intro g
  induction g with
  | nil => simp [updGroup, alookup]
  | cons p rest ih =>
    simp only [updGroup]
    by_cases h : p.1 = k
    · simp [alookup, h]
    · simp only [if_neg h, alookup, if_neg h]
      exact ih

theorem alookup_updGroup_other [DecidableEq κ] {k k' : κ} (f : Option ν → ν)
    (hne : k' ≠ k) :
    ∀ g : List (κ × ν), alookup k' (updGroup k f g) = alookup k' g := by
  intro g
  induction g with
  | nil =>
    have h2 : ¬ (k = k') := fun hc => hne hc.symm
    simp [updGroup, alookup, h2]
  | cons p rest ih =>
    simp only [updGroup]
    by_cases h : p.1 = k
    · have h2 : ¬ (k = k') := fun hc => hne hc.symm
      simp [alookup, h, h2]
    · simp only [if_neg h, alookup]
      by_cases h3 : p.1 = k'
      · simp [h3]
      · simp only [if_neg h3]
        exact ih

theorem updGroup_keys [DecidableEq κ] (k : κ) (f : Option ν → ν) :
    ∀ g : List (κ × ν), (updGroup k f g).map Prod.fst =
      if k ∈ g.map Prod.fst then g.map Prod.fst else g.map Prod.fst ++ [k] := by
  intro g
  induction g with
  | nil => simp [updGroup]
  | cons p rest ih =>
    simp only [updGroup]
    by_cases h : p.1 = k
    · simp [h]
    · have h2 : ¬ (k = p.1) := fun hc => h hc.symm
      simp only [if_neg h, List.map_cons, List.mem_cons, h2, false_or]
      by_cases h3 : k ∈ rest.map Prod.fst
      · simp only [if_pos h3]
        rw [ih, if_pos h3]
      · simp only [if_neg h3]
        rw [ih, if_neg h3]
        simp

theorem mem_updGroup [DecidableEq κ] (k : κ) (f : Option ν → ν) :
    ∀ g : List (κ × ν), ∀ p ∈ updGroup k f g, p ∈ g ∨ ∃ o, p = (k, f o) := by
  intro g
  induction g with
  | nil =>
    intro p hp
    simp only [updGroup, List.mem_singleton] at hp
    exact Or.inr ⟨none, hp⟩
  | cons q rest ih =>
    intro p hp
    simp only [updGroup] at hp
    by_cases h : q.1 = k
    · rw [if_pos h] at hp
      rcases List.mem_cons.mp hp with rfl | hp2
      · exact Or.inr ⟨some q.2, rfl⟩
      · exact Or.inl (List.mem_cons_of_mem _ hp2)
    · rw [if_neg h] at hp
      rcases List.mem_cons.mp hp with rfl | hp2
      · exact Or.inl (List.mem_cons_self _ _)
      · rcases ih p hp2 with h2 | h2
        · exact Or.inl (List.mem_cons_of_mem _ h2)
        · exact Or.inr h2

theorem alookup_of_mem_nodup [DecidableEq κ] {g : List (κ × ν)}
    (hnd : (g.map Prod.fst).Nodup) {p : κ × ν} (hp : p ∈ g) :
    alookup p.1 g = some p.2 := by
  induction g with
  | nil => simp at hp
  | cons q rest ih =>
    simp only [List.map_cons, List.nodup_cons] at hnd
    rcases List.mem_cons.mp hp with rfl | hp2
    · simp [alookup]
    · have hne : q.1 ≠ p.1 := by
        intro hc
        exact hnd.1 (hc ▸ List.mem_map.mpr ⟨p, hp2, rfl⟩)
      simp only [alookup, if_neg hne]
      exact ih hnd.2 hp2

theorem mem_dedupF (l : List String) :
    ∀ seen k, k ∈ dedupF seen l ↔ (k ∈ l ∧ k ∉ seen) := by
  induction l with
  | nil => intro seen k; simp [dedupF]
  | cons x xs ih =>
    intro seen k
    simp only [dedupF]
    by_cases hx : x ∈ seen
    · rw [if_pos hx, ih]
      constructor
      · intro h
        exact ⟨List.mem_cons_of_mem _ h.1, h.2⟩
      · intro h
        rcases List.mem_cons.mp h.1 with rfl | h2
        · exact absurd hx h.2
        · exact ⟨h2, h.2⟩
    · rw [if_neg hx]
      by_cases hk : k = x
      · subst hk
        simp [hx]
      · simp only [List.mem_cons, hk, false_or]
        rw [ih]
        simp only [List.mem_cons, hk, false_or]

theorem dedupF_nodup (l : List String) : ∀ seen, (dedupF seen l).Nodup := by
  induction l with
  | nil => intro seen; simp [dedupF]
  | cons x xs ih =>
    intro seen
    simp only [dedupF]
    by_cases hx : x ∈ seen
    · rw [if_pos hx]
      exact ih seen
    · rw [if_neg hx, List.nodup_cons]
      refine ⟨?_, ih (x :: seen)⟩
      intro hc
      exact ((mem_dedupF xs (x :: seen) x).mp hc).2 (List.mem_cons_self _ _)

theorem dedupF_congr (l : List String) :
    ∀ s1 s2, (∀ k, k ∈ s1 ↔ k ∈ s2) → dedupF s1 l = dedupF s2 l := by
  induction l with
  | nil => intro s1 s2 _; rfl
  | cons x xs ih =>
    intro s1 s2 h
    simp only [dedupF]
    by_cases hx : x ∈ s1
    · rw [if_pos hx, if_pos ((h x).mp hx)]
      exact ih s1 s2 h
    · rw [if_neg hx, if_neg (fun hc => hx ((h x).mpr hc))]
      rw [ih (x :: s1) (x :: s2) (by intro k; simp [h k])]

theorem mem_updGroup_eq [DecidableEq κ] (k : κ) (f : Option ν → ν) :
    ∀ g : List (κ × ν), ∀ p ∈ updGroup k f g, p ∈ g ∨ p = (k, f (alookup k g)) := by
  intro g
  induction g with
  | nil =>
    intro p hp
    simp only [updGroup, List.mem_singleton] at hp
    exact Or.inr (by simp [hp, alookup])
  | cons q rest ih =>
    intro p hp
    simp only [updGroup] at hp
    by_cases h : q.1 = k
    · rw [if_pos h] at hp
      rcases List.mem_cons.mp hp with rfl | hp2
      · exact Or.inr (by simp [alookup, h])
      · exact Or.inl (List.mem_cons_of_mem _ hp2)
    · rw [if_neg h] at hp
      rcases List.mem_cons.mp hp with rfl | hp2
      · exact Or.inl (List.mem_cons_self _ _)
      · rcases ih p hp2 with h2 | h2
        · exact Or.inl (List.mem_cons_of_mem _ h2)
        · refine Or.inr ?_
          rw [h2]
          simp [alookup, h]

theorem mem_of_alookup_eq_some [DecidableEq κ] {k : κ} {v : ν} :
    ∀ {g : List (κ × ν)}, alookup k g = some v → (k, v) ∈ g := by
  intro g
  induction g with
  | nil => intro h; simp [alookup] at h
  | cons q rest ih =>
    intro h
    simp only [alookup] at h
    by_cases hq : q.1 = k
    · rw [if_pos hq] at h
      have : q = (k, v) := by
        cases q
        simp at hq h
        simp [hq, h]
      exact this ▸ List.mem_cons_self _ _
    · rw [if_neg hq] at h
      exact List.mem_cons_of_mem _ (ih h)

theorem group2get_appendGroup2_same (d s : String) (v : β)
    (g : List (String × List (String × List β))) :
    group2get d s (appendGroup2 d s v g) = group2get d s g ++ [v] := by
  unfold group2get appendGroup2
  rw [alookup_updGroup_self]
  simp only [Option.getD_some]
  unfold appendGroup1
  rw [alookup_updGroup_self]
  simp

theorem group2get_appendGroup2_other (d s dp sp : String) (v : β)
    (g : List (String × List (String × List β))) (h : ¬ (dp = d ∧ sp = s)) :
    group2get d s (appendGroup2 dp sp v g) = group2get d s g := by
  by_cases hd : dp = d
  · subst hd
    have hs : s ≠ sp := fun hc => h ⟨rfl, hc.symm⟩
    unfold group2get appendGroup2
    rw [alookup_updGroup_self]
    simp only [Option.getD_some]
    unfold appendGroup1
    rw [alookup_updGroup_other _ hs]
  · unfold group2get appendGroup2
    rw [alookup_updGroup_other _ (fun hc => hd hc.symm)]

theorem group2get_groupFold (kd ks : α → String) (val : α → β) (d s : String) :
    ∀ (items : List α) (acc : List (String × List (String × List β))),
      group2get d s (items.foldl (fun acc x => appendGroup2 (kd x) (ks x) (val x) acc) acc)
      = group2get d s acc
        ++ ((items.filter (fun x => decide (kd x = d) && decide (ks x = s))).map val) := by
  intro items
  induction items with
  | nil => intro acc; simp
  | cons x xs ih =>
    intro acc
    simp only [List.foldl_cons, List.filter_cons]
    by_cases hx : kd x = d ∧ ks x = s
    · have hb : (decide (kd x = d) && decide (ks x = s)) = true := by
        simp [hx.1, hx.2]
      rw [hb, if_pos rfl, ih]
      rw [hx.1, hx.2, group2get_appendGroup2_same]
      simp
    · have hb : (decide (kd x = d) && decide (ks x = s)) = false := by
        rcases not_and_or.mp hx with hc | hc
        · simp [hc]
        · simp [hc]
      rw [hb]
      simp only [Bool.false_eq_true, if_false]
      rw [ih, group2get_appendGroup2_other _ _ _ _ _ _ hx]

theorem groupFold_keys_aux (kd ks : α → String) (val : α → β) :
    ∀ (items : List α) (acc : List (String × List (String × List β))),
      (items.foldl (fun acc x => appendGroup2 (kd x) (ks x) (val x) acc) acc).map Prod.fst
      = acc.map Prod.fst ++ dedupF (acc.map Prod.fst) (items.map kd) := by
  intro items
  induction items with
  | nil => intro acc; simp [dedupF]
  | cons x xs ih =>
    intro acc
    simp only [List.foldl_cons, List.map_cons, dedupF]
    by_cases hx : kd x ∈ acc.map Prod.fst
    · rw [if_pos hx]
      have hkeys : (appendGroup2 (kd x) (ks x) (val x) acc).map Prod.fst
          = acc.map Prod.fst := by
        unfold appendGroup2
        rw [updGroup_keys, if_pos hx]
      rw [ih, hkeys]
    · rw [if_neg hx]
      have hkeys : (appendGroup2 (kd x) (ks x) (val x) acc).map Prod.fst
          = acc.map Prod.fst ++ [kd x] := by
        unfold appendGroup2
        rw [updGroup_keys, if_neg hx]
      rw [ih, hkeys]
      rw [dedupF_congr (xs.map kd) (acc.map Prod.fst ++ [kd x]) (kd x :: acc.map Prod.fst)
        (by intro k; simp [or_comm])]
      simp

theorem groupFold_keys (kd ks : α → String) (val : α → β) (items : List α) :
    (groupFold kd ks val items).map Prod.fst = dedupF [] (items.map kd) := by
  have h := groupFold_keys_aux kd ks val items []
  simpa [groupFold] using h

theorem groupFold_keys_nodup (kd ks : α → String) (val : α → β) (items : List α) :
    ((groupFold kd ks val items).map Prod.fst).Nodup := by
  rw [groupFold_keys]
  exact dedupF_nodup _ []

theorem groupFold_inner_keys_aux (kd ks : α → String) (val : α → β) (d : String) :
    ∀ (items : List α) (acc : List (String × List (String × List β))),
      ((alookup d (items.foldl (fun acc x => appendGroup2 (kd x) (ks x) (val x) acc) acc)).getD []).map Prod.fst
      = ((alookup d acc).getD []).map Prod.fst
        ++ dedupF (((alookup d acc).getD []).map Prod.fst)
            ((items.filter (fun x => decide (kd x = d))).map ks) := by
  intro items
  induction items with
  | nil => intro acc; simp [dedupF]
  | cons x xs ih =>
    intro acc
    simp only [List.foldl_cons, List.filter_cons]
    by_cases hd : kd x = d
    · have hb : decide (kd x = d) = true := by simp [hd]
      have hstep : (alookup d (appendGroup2 (kd x) (ks x) (val x) acc)).getD []
          = appendGroup1 (ks x) (val x) ((alookup d acc).getD []) := by
        rw [hd]
        unfold appendGroup2
        rw [alookup_updGroup_self]
        rfl
      rw [hb, if_pos rfl]
      simp only [List.map_cons]
      rw [ih, hstep]
      by_cases hks : ks x ∈ ((alookup d acc).getD []).map Prod.fst
      · have hkeys : (appendGroup1 (ks x) (val x) ((alookup d acc).getD [])).map Prod.fst
            = ((alookup d acc).getD []).map Prod.fst := by
          unfold appendGroup1
          rw [updGroup_keys, if_pos hks]
        rw [hkeys]
        conv_rhs => rw [dedupF]
        rw [if_pos hks]
      · have hkeys : (appendGroup1 (ks x) (val x) ((alookup d acc).getD [])).map Prod.fst
            = ((alookup d acc).getD []).map Prod.fst ++ [ks x] := by
          unfold appendGroup1
          rw [updGroup_keys, if_neg hks]
        rw [hkeys]
        conv_rhs => rw [dedupF]
        rw [if_neg hks]
        rw [dedupF_congr ((xs.filter (fun x => decide (kd x = d))).map ks)
          (((alookup d acc).getD []).map Prod.fst ++ [ks x])
          (ks x :: ((alookup d acc).getD []).map Prod.fst)
          (by intro k; simp [or_comm])]
        simp
    · have hb : decide (kd x = d) = false := by simp [hd]
      have hstep : alookup d (appendGroup2 (kd x) (ks x) (val x) acc) = alookup d acc := by
        unfold appendGroup2
        exact alookup_updGroup_other _ (fun hc => hd hc.symm) acc
      rw [hb]
      simp only [Bool.false_eq_true, if_false]
      rw [ih, hstep]

theorem groupFold_inner_keys (kd ks : α → String) (val : α → β) (d : String)
    (items : List α) :
    ((alookup d (groupFold kd ks val items)).getD []).map Prod.fst
      = dedupF [] ((items.filter (fun x => decide (kd x = d))).map ks) := by
  have h := groupFold_inner_keys_aux kd ks val d items []
  simpa [groupFold, alookup] using h

theorem groupFold_vals_ne_nil (kd ks : α → String) (val : α → β) :
    ∀ (items : List α) (acc : List (String × List (String × List β))),
      (∀ p ∈ acc, ∀ q ∈ p.2, q.2 ≠ []) →
      ∀ p ∈ items.foldl (fun acc x => appendGroup2 (kd x) (ks x) (val x) acc) acc,
        ∀ q ∈ p.2, q.2 ≠ [] := by
  intro items
  induction items with
  | nil =>
    intro acc h
    exact h
  | cons x xs ih =>
    intro acc h
    simp only [List.foldl_cons]
    apply ih
    intro p hp q hq
    rcases mem_updGroup_eq (kd x) _ acc p hp with hpg | hpe
    · exact h p hpg q hq
    · have hp2 : p.2 = appendGroup1 (ks x) (val x) ((alookup (kd x) acc).getD []) := by
        rw [hpe]
      rw [hp2] at hq
      unfold appendGroup1 at hq
      rcases mem_updGroup_eq (ks x) _ _ q hq with hqg | hqe
      · cases hal : alookup (kd x) acc with
        | none =>
          rw [hal] at hqg
          simp at hqg
        | some inner =>
          rw [hal] at hqg
          simp only [Option.getD_some] at hqg
          exact h (kd x, inner) (mem_of_alookup_eq_some hal) q hqg
      · have : q.2 = (alookup (ks x) ((alookup (kd x) acc).getD [])).getD [] ++ [val x] := by
          rw [hqe]
        rw [this]
        simp

theorem group_content (kd ks : α → String) (val : α → β) {items : List α}
    {d : String} {inner : List (String × List β)} {s : String} {g : List β}
    (h1 : (d, inner) ∈ groupFold kd ks val items) (h2 : (s, g) ∈ inner) :
    g = (items.filter (fun x => decide (kd x = d) && decide (ks x = s))).map val := by
  have ho : alookup d (groupFold kd ks val items) = some inner :=
    alookup_of_mem_nodup (groupFold_keys_nodup kd ks val items) h1
  have hinkeys : (inner.map Prod.fst).Nodup := by
    have := groupFold_inner_keys kd ks val d items
    rw [ho] at this
    simp only [Option.getD_some] at this
    rw [this]
    exact dedupF_nodup _ []
  have hin : alookup s inner = some g := alookup_of_mem_nodup hinkeys h2
  have hc := group2get_groupFold kd ks val d s items []
  unfold group2get at hc
  have ho2 : alookup d (items.foldl (fun acc x => appendGroup2 (kd x) (ks x) (val x) acc) [])
      = some inner := ho
  rw [ho2] at hc
  simp only [Option.getD_some] at hc
  rw [hin] at hc
  simpa [alookup] using hc

/-! Lemmas about the shared output stage of the two scripts. -/

theorem mem_take_one {γ : Type v} {l : List γ} {b : γ} (h : b ∈ l.take 1) :
    ∃ t, l = b :: t := by
  cases l with
  | nil => simp at h
  | cons x t =>
    simp only [List.take_succ_cons, List.take_zero, List.mem_singleton] at h
    exact ⟨t, by rw [h]⟩

theorem buildIndex_canonical (kd ks : α → String) (val : α → β) (pathOf : β → String)
    (toRec : β → IndexAssetRecord) (items : List α) :
    ∀ p ∈ buildIndex kd ks val pathOf toRec items, ∀ r ∈ p.2,
      ∃ x, x ∈ items ∧ kd x = p.1 ∧ r = toRec (val x) ∧
        ∀ y ∈ items, kd y = p.1 → ks y = ks x →
          strLt (pathOf (val y)) (pathOf (val x)) = false := by
  intro p hp r hr
  unfold buildIndex indexOfGrouped at hp
  obtain ⟨gp, hgp_s, hF⟩ := List.mem_map.mp hp
  have hgp : gp ∈ groupFold kd ks val items := (mem_sortBy _ _ _).mp hgp_s
  have hp1 : p.1 = gp.1 := by rw [← hF]
  have hp2 : p.2 = (sortBy (fun p q => strLt p.1 q.1) gp.2).flatMap
      (fun q => ((sortBy (fun a b => strLt (pathOf a) (pathOf b)) q.2).take 1).map toRec) := by
    rw [← hF]
  rw [hp2] at hr
  obtain ⟨q, hq_s, hrq⟩ := List.mem_flatMap.mp hr
  have hq : q ∈ gp.2 := (mem_sortBy _ _ _).mp hq_s
  obtain ⟨b, hb_take, rfl⟩ := List.mem_map.mp hrq
  obtain ⟨t, hsort⟩ := mem_take_one hb_take
  have hb_mem : b ∈ q.2 := by
    have hmem : b ∈ sortBy (fun a b => strLt (pathOf a) (pathOf b)) q.2 := by
      rw [hsort]
      exact List.mem_cons_self _ _
    exact (mem_sortBy _ _ _).mp hmem
  have hcontent : q.2
      = (items.filter (fun x => decide (kd x = gp.1) && decide (ks x = q.1))).map val :=
    group_content kd ks val hgp hq
  have hb2 : b ∈ (items.filter (fun x => decide (kd x = gp.1) && decide (ks x = q.1))).map val :=
    hcontent ▸ hb_mem
  obtain ⟨x, hx_f, rfl⟩ := List.mem_map.mp hb2
  have hx_cond := List.mem_filter.mp hx_f
  have hxc : kd x = gp.1 ∧ ks x = q.1 := by
    have hxb := hx_cond.2
    simp only [Bool.and_eq_true, decide_eq_true_eq] at hxb
    exact hxb
  refine ⟨x, hx_cond.1, by rw [hxc.1, hp1], rfl, ?_⟩
  intro y hy hyd hys
  have hy_mem : val y ∈ q.2 := by
    rw [hcontent]
    refine List.mem_map.mpr ⟨y, List.mem_filter.mpr ⟨hy, ?_⟩, rfl⟩
    simp only [Bool.and_eq_true, decide_eq_true_eq]
    exact ⟨by rw [hyd, hp1], by rw [hys, hxc.2]⟩
  exact sortBy_head_min (fun a b => strLt (pathOf a) (pathOf b))
    (fun a => strLt_irrefl _)
    (fun a b h => strLt_asymm h)
    (fun a b c h1 h2 => strLt_neg_trans h1 h2)
    hsort (val y) hy_mem

theorem flatMap_take1_map (lt : β → β → Bool) (toRec : β → IndexAssetRecord)
    (subjRec : IndexAssetRecord → String) :
    ∀ l : List (String × List β),
      (∀ q ∈ l, q.2 ≠ []) →
      (∀ q ∈ l, ∀ b ∈ q.2, subjRec (toRec b) = q.1) →
      ((l.flatMap (fun q => ((sortBy lt q.2).take 1).map toRec)).map subjRec)
        = l.map Prod.fst := by
  intro l
  induction l with
  | nil =>
    intro _ _
    simp
  | cons q rest ih =>
    intro hne hsub
    simp only [List.flatMap_cons, List.map_append, List.map_cons]
    rw [ih (fun a ha => hne a (List.mem_cons_of_mem _ ha))
      (fun a ha b hb => hsub a (List.mem_cons_of_mem _ ha) b hb)]
    cases hs : sortBy lt q.2 with
    | nil =>
      exfalso
      have hperm := sortBy_perm lt q.2
      rw [hs] at hperm
      exact hne q (List.mem_cons_self _ _) hperm.symm.eq_nil
    | cons b t =>
      simp only [List.take_succ_cons, List.take_zero, List.map_cons, List.map_nil]
      have hb : b ∈ q.2 := (mem_sortBy lt b q.2).mp (hs ▸ List.mem_cons_self b t)
      rw [hsub q (List.mem_cons_self _ _) b hb]
      rfl

theorem buildIndex_subjects (kd ks : α → String) (val : α → β) (pathOf : β → String)
    (toRec : β → IndexAssetRecord) (subjRec : IndexAssetRecord → String)
    (hrec : ∀ x, subjRec (toRec (val x)) = ks x) (items : List α) :
    ∀ p ∈ buildIndex kd ks val pathOf toRec items,
      p.2.map subjRec
        = sortBy strLt (dedupF [] ((items.filter (fun x => decide (kd x = p.1))).map ks)) := by
  intro p hp
  unfold buildIndex indexOfGrouped at hp
  obtain ⟨gp, hgp_s, hF⟩ := List.mem_map.mp hp
  have hgp : gp ∈ groupFold kd ks val items := (mem_sortBy _ _ _).mp hgp_s
  have hp1 : p.1 = gp.1 := by rw [← hF]
  have hp2 : p.2 = (sortBy (fun p q => strLt p.1 q.1) gp.2).flatMap
      (fun q => ((sortBy (fun a b => strLt (pathOf a) (pathOf b)) q.2).take 1).map toRec) := by
    rw [← hF]
  rw [hp2]
  have hne : ∀ q ∈ sortBy (fun p q => strLt p.1 q.1) gp.2, q.2 ≠ [] := by
    intro q hq
    exact groupFold_vals_ne_nil kd ks val items [] (by simp) gp hgp q
      ((mem_sortBy _ _ _).mp hq)
  have hsub : ∀ q ∈ sortBy (fun p q => strLt p.1 q.1) gp.2, ∀ b ∈ q.2,
      subjRec (toRec b) = q.1 := by
    intro q hq b hb
    have hq2 : q ∈ gp.2 := (mem_sortBy _ _ _).mp hq
    have hcontent := group_content kd ks val hgp hq2
    rw [hcontent] at hb
    obtain ⟨x, hx_f, rfl⟩ := List.mem_map.mp hb
    have hxs : ks x = q.1 := by
      have hxb := (List.mem_filter.mp hx_f).2
      simp only [Bool.and_eq_true, decide_eq_true_eq] at hxb
      exact hxb.2
    rw [hrec x, hxs]
  rw [flatMap_take1_map _ _ _ _ hne hsub]
  rw [← sortBy_map Prod.fst (fun p q => strLt p.1 q.1) strLt (fun a b => rfl) gp.2]
  congr 1
  have ho : alookup gp.1 (groupFold kd ks val items) = some gp.2 :=
    alookup_of_mem_nodup (groupFold_keys_nodup kd ks val items) hgp
  have hkeys := groupFold_inner_keys kd ks val gp.1 items
  rw [ho] at hkeys
  simp only [Option.getD_some] at hkeys
  rw [hp1, hkeys]

theorem buildIndex_keys_sorted (kd ks : α → String) (val : α → β) (pathOf : β → String)
    (toRec : β → IndexAssetRecord) (items : List α) :
    (buildIndex kd ks val pathOf toRec items).Pairwise (fun p q => strLt p.1 q.1 = true) := by
  unfold buildIndex indexOfGrouped
  rw [List.pairwise_map]
  have h1 : (sortBy (fun p q => strLt p.1 q.1) (groupFold kd ks val items)).Pairwise
      (fun u v => strLt v.1 u.1 = false) :=
    pairwise_sortBy (fun p q => strLt p.1 q.1) (fun a b h => strLt_asymm h)
      (fun a b c ha hb => @strLt_neg_trans a.1 b.1 c.1 ha hb) (groupFold kd ks val items)
  have h2 : ((sortBy (fun p q => strLt p.1 q.1) (groupFold kd ks val items)).map Prod.fst).Nodup := by
    have hperm := (sortBy_perm (fun p q => strLt p.1 q.1) (groupFold kd ks val items)).map Prod.fst
    exact hperm.nodup_iff.mpr (groupFold_keys_nodup kd ks val items)
  have h3 : (sortBy (fun p q => strLt p.1 q.1) (groupFold kd ks val items)).Pairwise
      (fun u v => u.1 ≠ v.1) := by
    rw [List.Nodup, List.pairwise_map] at h2
    exact h2
  refine (h1.and h3).imp ?_
  intro a b hab
  rcases strLt_total a.1 b.1 with h | h | h
  · exact h
  · rw [hab.1] at h
    exact absurd h (by simp)
  · exact absurd h hab.2

theorem appendGroup1_map (φ : β → γ) (s : String) (v : β) :
    ∀ inner : List (String × List β),
      appendGroup1 s (φ v) (inner.map (fun q => (q.1, q.2.map φ)))
        = (appendGroup1 s v inner).map (fun q => (q.1, q.2.map φ)) := by
  intro inner
  induction inner with
  | nil => simp [appendGroup1, updGroup]
  | cons q rest ih =>
    simp only [appendGroup1, updGroup, List.map_cons]
    by_cases h : q.1 = s
    · simp [h]
    · simp only [if_neg h, List.map_cons]
      unfold appendGroup1 at ih
      rw [ih]

theorem appendGroup2_map (φ : β → γ) (d s : String) (v : β) :
    ∀ g : List (String × List (String × List β)),
      appendGroup2 d s (φ v) (mapGrouped φ g) = mapGrouped φ (appendGroup2 d s v g) := by
  intro g
  induction g with
  | nil =>
    simp only [mapGrouped, appendGroup2, updGroup, List.map_nil, List.map_cons]
    rw [show (none : Option (List (String × List γ))).getD [] = ([] : List (String × List β)).map (fun q => (q.1, q.2.map φ)) from rfl]
    rw [appendGroup1_map]
    simp
  | cons p rest ih =>
    simp only [mapGrouped, appendGroup2, updGroup, List.map_cons]
    by_cases h : p.1 = d
    · simp only [if_pos h, Option.getD_some, List.map_cons]
      rw [appendGroup1_map]
    · simp only [if_neg h, List.map_cons]
      unfold mapGrouped appendGroup2 at ih
      rw [ih]

theorem groupFold_map_aux (kd ks : α → String) (val : α → β) (φ : β → γ) :
    ∀ (items : List α) (acc : List (String × List (String × List β))),
      items.foldl (fun acc x => appendGroup2 (kd x) (ks x) (φ (val x)) acc) (mapGrouped φ acc)
        = mapGrouped φ (items.foldl (fun acc x => appendGroup2 (kd x) (ks x) (val x) acc) acc) := by
  intro items
  induction items with
  | nil => intro acc; simp
  | cons x xs ih =>
    intro acc
    simp only [List.foldl_cons]
    rw [appendGroup2_map, ih]

theorem groupFold_map (kd ks : α → String) (val : α → β) (φ : β → γ) (items : List α) :
    groupFold kd ks (fun x => φ (val x)) items = mapGrouped φ (groupFold kd ks val items) := by
  have h := groupFold_map_aux kd ks val φ items []
  simpa [groupFold, mapGrouped] using h

theorem flatMap_map_local (f : γ → δ) (g : δ → List ε) :
    ∀ l : List γ, (l.map f).flatMap g = l.flatMap (fun x => g (f x)) := by
  intro l
  induction l with
  | nil => simp
  | cons x xs ih => simp [ih]

theorem indexOfGrouped_map (φ : β → γ) (pathB : β → String) (pathG : γ → String)
    (toRecG : γ → IndexAssetRecord) (hpath : ∀ b, pathG (φ b) = pathB b)
    (g : List (String × List (String × List β))) :
    indexOfGrouped pathG toRecG (mapGrouped φ g)
      = indexOfGrouped pathB (fun b => toRecG (φ b)) g := by
  unfold indexOfGrouped mapGrouped
  rw [sortBy_map (fun p => (p.1, p.2.map (fun q => (q.1, q.2.map φ))))
    (fun p q => strLt p.1 q.1) (fun p q => strLt p.1 q.1) (fun a b => rfl) g]
  rw [List.map_map]
  apply List.map_congr_left
  intro p hp
  simp only [Function.comp]
  refine congrArg (fun z => (p.1, z)) ?_
  rw [sortBy_map (fun q => (q.1, q.2.map φ))
    (fun p q => strLt p.1 q.1) (fun p q => strLt p.1 q.1) (fun a b => rfl) p.2]
  rw [flatMap_map_local]
  have hfun : (fun (x : String × List β) =>
        ((sortBy (fun a b => strLt (pathG a) (pathG b)) (x.2.map φ)).take 1).map toRecG)
      = (fun q => ((sortBy (fun a b => strLt (pathB a) (pathB b)) q.2).take 1).map
          (fun b => toRecG (φ b))) := by
    funext q
    rw [sortBy_map φ (fun a b => strLt (pathB a) (pathB b))
      (fun a b => strLt (pathG a) (pathG b))
      (fun a b => by
        show strLt (pathG (φ a)) (pathG (φ b)) = strLt (pathB a) (pathB b)
        rw [hpath, hpath]) q.2]
    rw [← List.map_take, List.map_map]
    rfl
  rw [hfun]

/-! The two scripts compute the same record and, over the same entry list,
the same index. -/

theorem gen_record_eq_rescan_record (e : CacheEntry) : gen_record e = rescan_record e := by
  unfold gen_record rescan_record
  rw [gen_regions_eq_spec, rescan_regions_eq_spec]

theorem extract_subject_eq : rescan_extract_subject = extract_subject := rfl

theorem generate_index_eq_rescan_regen (entries : List CacheEntry) :
    generate_index entries = rescan_regen (entries.map (fun e => (cacheKey e, e))) := by
  unfold generate_index rescan_regen buildIndex
  have hg : groupFold (fun kv => kv.1.1) (fun kv => rescan_extract_subject kv.2.path)
      (fun kv => kv.2) (entries.map (fun e => (cacheKey e, e)))
      = groupFold (fun e => e.dandiset_id) (fun e => extract_subject e.path)
          (fun e => e) entries := by
    unfold groupFold
    rw [List.foldl_map]
    rfl
  rw [hg]
  have hmap : groupFold (fun e => e.dandiset_id) (fun e => extract_subject e.path)
      gen_record entries
      = mapGrouped gen_record (groupFold (fun e => e.dandiset_id)
          (fun e => extract_subject e.path) (fun e => e) entries) :=
    groupFold_map (fun e => e.dandiset_id) (fun e => extract_subject e.path)
      (fun e => e) gen_record entries
  rw [hmap]
  rw [indexOfGrouped_map gen_record (fun e => e.path) (fun r => r.path) id (fun b => rfl)]
  have hrec : (fun b => id (gen_record b)) = rescan_record := by
    funext b
    simp only [id]
    exact gen_record_eq_rescan_record b
  rw [hrec]

/-! Lemmas about loading the cache log. -/

theorem alookup_upsert_self [DecidableEq κ] (k : κ) (v : ν) :
    ∀ g : List (κ × ν), alookup k (upsert k v g) = some v := by
  intro g
  induction g with
  | nil => simp [upsert, alookup]
  | cons p rest ih =>
    simp only [upsert]
    by_cases h : p.1 = k
    · simp [alookup, h]
    · simp only [if_neg h, alookup, if_neg h]
      exact ih

theorem alookup_upsert_other [DecidableEq κ] {k k' : κ} (v : ν) (hne : k' ≠ k) :
    ∀ g : List (κ × ν), alookup k' (upsert k v g) = alookup k' g := by
  intro g
  induction g with
  | nil =>
    have h2 : ¬ (k = k') := fun hc => hne hc.symm
    simp [upsert, alookup, h2]
  | cons p rest ih =>
    simp only [upsert]
    by_cases h : p.1 = k
    · have h2 : ¬ (k = k') := fun hc => hne hc.symm
      simp [alookup, h, h2]
    · simp only [if_neg h, alookup]
      by_cases h3 : p.1 = k'
      · simp [h3]
      · simp only [if_neg h3]
        exact ih

theorem load_step_lookup (k : String × String) :
    ∀ (lines : List LogLine) (cache : List ((String × String) × CacheEntry)),
      alookup k (lines.foldl (fun cache l =>
          match l with
          | .blank => cache
          | .record e => upsert (cacheKey e) e cache) cache)
      = match lastRecord k lines with
        | some e => some e
        | none => alookup k cache := by
  intro lines
  induction lines with
  | nil => intro cache; simp [lastRecord]
  | cons l rest ih =>
    intro cache
    simp only [List.foldl_cons, lastRecord]
    cases hl : lastRecord k rest with
    | some e' =>
      rw [ih]
      simp [hl]
    | none =>
      rw [ih]
      simp only [hl]
      cases l with
      | blank => rfl
      | record e =>
        by_cases hk : cacheKey e = k
        · subst hk
          simp [alookup_upsert_self]
        · simp only [if_neg hk]
          exact alookup_upsert_other e (fun hc => hk hc.symm) cache

theorem load_lookup_lastRecord (k : String × String) (lines : List LogLine) :
    alookup k (load_label_cache (some lines)) = lastRecord k lines := by
  unfold load_label_cache
  rw [load_step_lookup]
  cases hl : lastRecord k lines with
  | some e => rfl
  | none => simp [alookup]

theorem processDandiset_nil_listing (label : String → AssetListing → Except String CacheEntry)
    (ds : String) (st : SyncState) : processDandiset label ds [] st = st := rfl

theorem rescan_main_empty_listing (label : String → AssetListing → Except String CacheEntry)
    (log : Option (List LogLine)) :
    (rescan_main (fun _ => []) label log).2 = rescan_regen (load_label_cache log) := by
  unfold rescan_main
  have hfold : ∀ (ds_ids : List String) (st : SyncState),
      ds_ids.foldl (fun st ds => processDandiset label ds [] st) st = st := by
    intro ds_ids
    induction ds_ids with
    | nil => intro st; rfl
    | cons d rest ih =>
      intro st
      simp only [List.foldl_cons, processDandiset_nil_listing]
      exact ih st
  simp only [hfold]

theorem load_label_cache_some (lines : List LogLine) :
    load_label_cache (some lines) = lines.foldl (fun cache l =>
      match l with
      | .blank => cache
      | .record e => upsert (cacheKey e) e cache) [] := rfl

theorem load_skip_blank (l1 l2 : List LogLine) :
    load_label_cache (some (l1 ++ LogLine.blank :: l2))
      = load_label_cache (some (l1 ++ l2)) := by
  rw [load_label_cache_some, load_label_cache_some,
    List.foldl_append, List.foldl_cons, List.foldl_append]

theorem load_append_record (l : List LogLine) (e : CacheEntry) :
    load_label_cache (some (l ++ [LogLine.record e]))
      = upsert (cacheKey e) e (load_label_cache (some l)) := by
  rw [load_label_cache_some, load_label_cache_some, List.foldl_append]
  rfl

theorem parseAllLines_blank : ∀ lines : List LogLine, LogLine.blank ∈ lines →
    parseAllLines lines = .error .parseError := by
  intro lines
  induction lines with
  | nil => intro h; simp at h
  | cons l rest ih =>
    intro h
    cases l with
    | blank => rfl
    | record e =>
      have h2 : LogLine.blank ∈ rest := by
        rcases List.mem_cons.mp h with hc | hc
        · exact absurd hc (by simp)
        · exact hc
      simp only [parseAllLines]
      rw [ih h2]
      rfl

theorem generate_read_blank (lines : List LogLine) (h : LogLine.blank ∈ lines) :
    generate_read (some lines) = .error .parseError :=
  parseAllLines_blank lines h

/-! Synchronizer step lemmas. -/

theorem processSubject_skip (label : String → AssetListing → Except String CacheEntry)
    (ds subj : String) (group : List AssetListing) (st : SyncState)
    (h : group.any (fun a => (alookup (ds, a.asset_id) st.label_cache).isSome) = true) :
    processSubject label ds subj group st = st := by
  simp only [processSubject]
  rw [sortBy_any, h]
  rfl

theorem processSubject_label_once (label : String → AssetListing → Except String CacheEntry)
    (ds subj : String) (group : List AssetListing) (st : SyncState)
    (hne : group ≠ [])
    (h : group.any (fun a => (alookup (ds, a.asset_id) st.label_cache).isSome) = false) :
    ∃ a, a ∈ group ∧ (∀ b ∈ group, strLt b.path a.path = false) ∧
      (processSubject label ds subj group st).calls = st.calls ++ [(ds, subj, a)] := by
  simp only [processSubject]
  rw [sortBy_any, h]
  simp only [Bool.false_eq_true, if_false]
  cases hs : sortBy (fun a b => strLt a.path b.path) group with
  | nil =>
    exfalso
    have hperm := sortBy_perm (fun a b => strLt a.path b.path) group
    rw [hs] at hperm
    exact hne hperm.symm.eq_nil
  | cons a t =>
    refine ⟨a, ?_, ?_, ?_⟩
    · exact (mem_sortBy _ _ _).mp (hs ▸ List.mem_cons_self a t)
    · intro b hb
      exact sortBy_head_min (fun a b => strLt a.path b.path)
        (fun x => strLt_irrefl _)
        (fun x y hxy => strLt_asymm hxy)
        (fun x y z h1 h2 => @strLt_neg_trans x.path y.path z.path h1 h2)
        hs b hb
    · cases hl : label ds a <;> simp [hl]

theorem processSubject_error_state (label : String → AssetListing → Except String CacheEntry)
    (ds subj : String) (group : List AssetListing) (st : SyncState)
    (herr : ∀ a ∈ group, ∃ msg, label ds a = Except.error msg) :
    (processSubject label ds subj group st).label_cache = st.label_cache
    ∧ (processSubject label ds subj group st).appended = st.appended
    ∧ (processSubject label ds subj group st).total_new = st.total_new := by
  simp only [processSubject]
  cases hc : (sortBy (fun a b => strLt a.path b.path) group).any
      (fun a => (alookup (ds, a.asset_id) st.label_cache).isSome) with
  | true => simp [hc]
  | false =>
    simp only [hc, Bool.false_eq_true, if_false]
    cases hs : sortBy (fun a b => strLt a.path b.path) group with
    | nil => exact ⟨rfl, rfl, rfl⟩
    | cons a t =>
      have ha : a ∈ group := (mem_sortBy _ _ _).mp (hs ▸ List.mem_cons_self a t)
      obtain ⟨msg, hmsg⟩ := herr a ha
      simp [hmsg]

/-! Loading a log of record lines with pairwise-distinct keys. -/

theorem upsert_append [DecidableEq κ] (k : κ) (v : ν) :
    ∀ g : List (κ × ν), alookup k g = none → upsert k v g = g ++ [(k, v)] := by
  intro g
  induction g with
  | nil => intro _; rfl
  | cons p rest ih =>
    intro h
    simp only [alookup] at h
    by_cases hp : p.1 = k
    · rw [if_pos hp] at h
      exact absurd h (by simp)
    · rw [if_neg hp] at h
      simp only [upsert, if_neg hp, List.cons_append]
      rw [ih h]

theorem alookup_append_none [DecidableEq κ] (k : κ) :
    ∀ l1 l2 : List (κ × ν), alookup k l1 = none →
      alookup k (l1 ++ l2) = alookup k l2 := by
  intro l1
  induction l1 with
  | nil => intro l2 _; rfl
  | cons p rest ih =>
    intro l2 h
    simp only [alookup] at h
    by_cases hp : p.1 = k
    · rw [if_pos hp] at h
      exact absurd h (by simp)
    · rw [if_neg hp] at h
      simp only [List.cons_append, alookup, if_neg hp]
      exact ih l2 h

theorem load_records_nodup_aux :
    ∀ (entries : List CacheEntry) (cache : List ((String × String) × CacheEntry)),
      (entries.map cacheKey).Nodup →
      (∀ e ∈ entries, alookup (cacheKey e) cache = none) →
      (entries.map LogLine.record).foldl (fun cache l =>
        match l with
        | .blank => cache
        | .record e => upsert (cacheKey e) e cache) cache
      = cache ++ entries.map (fun e => (cacheKey e, e)) := by
  intro entries
  induction entries with
  | nil =>
    intro cache _ _
    simp
  | cons e rest ih =>
    intro cache hnd hnone
    simp only [List.map_cons, List.foldl_cons]
    have hup : upsert (cacheKey e) e cache = cache ++ [(cacheKey e, e)] :=
      upsert_append _ _ _ (hnone e (List.mem_cons_self _ _))
    rw [hup]
    rw [ih (cache ++ [(cacheKey e, e)]) (by simpa using hnd.of_cons) ?hn]
    · simp
    case hn =>
      intro e' he'
      rw [alookup_append_none _ _ _ (hnone e' (List.mem_cons_of_mem _ he'))]
      have hne : cacheKey e ≠ cacheKey e' := by
        intro hc
        have : cacheKey e ∈ rest.map cacheKey := hc ▸ List.mem_map.mpr ⟨e', he', rfl⟩
        simp only [List.map_cons, List.nodup_cons] at hnd
        exact hnd.1 this
      simp [alookup, hne]

theorem load_records_nodup (entries : List CacheEntry)
    (hnd : (entries.map cacheKey).Nodup) :
    load_label_cache (some (entries.map LogLine.record))
      = entries.map (fun e => (cacheKey e, e)) := by
  rw [load_label_cache_some]
  have h := load_records_nodup_aux entries [] hnd (fun e _ => rfl)
  simpa using h

theorem parseAllLines_records : ∀ entries : List CacheEntry,
    parseAllLines (entries.map LogLine.record) = .ok entries := by
  intro entries
  induction entries with
  | nil => rfl
  | cons e rest ih =>
    simp only [List.map_cons, parseAllLines, ih]
    rfl

/-! Characterization of the Python split used by extract_subject. -/

theorem splitCh_ne_nil (sep : Char) : ∀ cs : List Char, splitCh sep cs ≠ [] := by
  intro cs
  induction cs with
  | nil => simp [splitCh]
  | cons c rest ih =>
    simp only [splitCh]
    by_cases h : c = sep
    · simp [h]
    · simp only [if_neg h]
      cases hsp : splitCh sep rest with
      | nil => simp
      | cons g gs => simp

theorem splitCh_head (sep : Char) :
    ∀ cs : List Char, (splitCh sep cs).headD [] = cs.takeWhile (fun c => c != sep) := by
  intro cs
  induction cs with
  | nil => rfl
  | cons c rest ih =>
    simp only [splitCh, List.takeWhile]
    by_cases h : c = sep
    · simp [h]
    · have hb : (c != sep) = true := by simp [h]
      simp only [if_neg h, hb]
      cases hsp : splitCh sep rest with
      | nil => exact absurd hsp (splitCh_ne_nil sep rest)
      | cons g gs =>
        rw [hsp] at ih
        simp only [List.headD_cons] at ih ⊢
        rw [ih]

theorem splitCh_gt_one (sep : Char) :
    ∀ cs : List Char, (1 < (splitCh sep cs).length) ↔ sep ∈ cs := by
  intro cs
  induction cs with
  | nil => simp [splitCh]
  | cons c rest ih =>
    simp only [splitCh]
    by_cases h : c = sep
    · simp only [if_pos h, List.length_cons, List.mem_cons]
      constructor
      · intro _
        exact Or.inl h.symm
      · intro _
        have hpos : 0 < (splitCh sep rest).length :=
          List.length_pos.mpr (splitCh_ne_nil sep rest)
        omega
    · simp only [if_neg h, List.mem_cons]
      cases hsp : splitCh sep rest with
      | nil => exact absurd hsp (splitCh_ne_nil sep rest)
      | cons g gs =>
        rw [hsp] at ih
        simp only [List.length_cons] at ih ⊢
        have hcs : ¬ sep = c := fun hc => h hc.symm
        simp only [hcs, false_or]
        exact ih

theorem extract_subject_spec (path : String) :
    extract_subject path =
      if '/' ∈ path.data then String.mk (path.data.takeWhile (fun c => c != '/'))
      else String.mk (path.data.takeWhile (fun c => c != '_')) := by
  unfold extract_subject pySplit
  by_cases h : '/' ∈ path.data
  · have hlen : 1 < (splitCh '/' path.data).length := (splitCh_gt_one _ _).mpr h
    have hmaplen : 1 < ((splitCh '/' path.data).map String.mk).length := by
      simpa using hlen
    rw [if_pos hmaplen, if_pos h]
    cases hsp : splitCh '/' path.data with
    | nil => exact absurd hsp (splitCh_ne_nil _ _)
    | cons g gs =>
      have hh := splitCh_head '/' path.data
      rw [hsp] at hh
      simp only [List.headD_cons] at hh
      simp only [List.map_cons, List.headD_cons]
      rw [hh]
  · have hlen : ¬ 1 < (splitCh '/' path.data).length := fun hc =>
      h ((splitCh_gt_one _ _).mp hc)
    have hmaplen : ¬ 1 < ((splitCh '/' path.data).map String.mk).length := by
      simpa using hlen
    rw [if_neg hmaplen, if_neg h]
    cases hsp : splitCh '_' path.data with
    | nil => exact absurd hsp (splitCh_ne_nil _ _)
    | cons g gs =>
      have hh := splitCh_head '_' path.data
      rw [hsp] at hh
      simp only [List.headD_cons] at hh
      simp only [List.map_cons, List.headD_cons]
      rw [hh]

/-! Remaining helpers for the claims. -/

theorem sortBy_str_pairwise_strict (l : List String) (h : l.Nodup) :
    (sortBy strLt l).Pairwise (fun a b => strLt a b = true) := by
  have h1 : (sortBy strLt l).Pairwise (fun a b => strLt b a = false) :=
    pairwise_sortBy strLt (fun a b hab => strLt_asymm hab)
      (fun a b c ha hb => @strLt_neg_trans a b c ha hb) l
  have h2 : (sortBy strLt l).Pairwise (fun a b => a ≠ b) :=
    sortBy_nodup strLt l h
  refine (h1.and h2).imp ?_
  intro a b hab
  rcases strLt_total a b with hc | hc | hc
  · exact hc
  · rw [hab.1] at hc
    exact absurd hc (by simp)
  · exact absurd hc hab.2

theorem rescan_regen_no_subject (cache : List ((String × String) × CacheEntry))
    (d subj : String)
    (h : ∀ kv ∈ cache, kv.1.1 = d → rescan_extract_subject kv.2.path ≠ subj) :
    ∀ p ∈ rescan_regen cache, p.1 = d → ∀ r ∈ p.2,
      rescan_extract_subject r.path ≠ subj := by
  intro p hp hpd r hr hc
  have hp2 : p ∈ buildIndex (fun kv => kv.1.1)
      (fun kv => rescan_extract_subject kv.2.path) (fun kv => kv.2)
      (fun e => e.path) rescan_record cache := hp
  have hsubs := buildIndex_subjects (fun kv => kv.1.1)
    (fun kv => rescan_extract_subject kv.2.path) (fun kv => kv.2) (fun e => e.path)
    rescan_record (fun r => rescan_extract_subject r.path) (fun kv => rfl) cache p hp2
  have hmem : rescan_extract_subject r.path
      ∈ p.2.map (fun r => rescan_extract_subject r.path) :=
    List.mem_map_of_mem _ hr
  rw [hsubs] at hmem
  have hmem2 := (mem_sortBy _ _ _).mp hmem
  have hmem3 := (mem_dedupF _ _ _).mp hmem2
  obtain ⟨kv, hkvf, hkveq⟩ := List.mem_map.mp hmem3.1
  have hkv := List.mem_filter.mp hkvf
  have hkvd : kv.1.1 = d := by
    have := hkv.2
    simp only [decide_eq_true_eq] at this
    rw [this, hpd]
  exact h kv hkv.1 hkvd (hkveq.trans hc)

/-! The claims. -/

/-- C1: for every cache entry, the region list each script emits for it is
exactly spec_regions of its matched_locations (the region-match records taken
in location-key iteration order and then match order within each key, keeping
only the first occurrence of each id and dropping ids 8 and 997); thus the
emitted ids are pairwise distinct and never 8 or 997. -/
theorem C1_regions_dedup_filter (e : CacheEntry) :
    (gen_record e).regions = spec_regions e.matched_locations
    ∧ (rescan_record e).regions = spec_regions e.matched_locations
    ∧ ((gen_record e).regions.map RegionMatch.id).Nodup
    ∧ ∀ m ∈ (gen_record e).regions, m.id ≠ 8 ∧ m.id ≠ 997 := by
  have h1 : (gen_record e).regions = spec_regions e.matched_locations :=
    gen_regions_eq_spec e.matched_locations
  have h2 : (rescan_record e).regions = spec_regions e.matched_locations :=
    rescan_regions_eq_spec e.matched_locations
  refine ⟨h1, h2, ?_, ?_⟩
  · rw [h1]
    exact dedupFilter_ids_nodup _ []
  · intro m hm
    rw [h1] at hm
    have hmem := mem_dedupFilter (e.matched_locations.flatMap Prod.snd) [] hm
    have hf := hmem.1
    simp only [FILTER_IDS, List.mem_cons, List.not_mem_nil, or_false,
      List.mem_singleton] at hf
    exact ⟨fun hc => hf (Or.inr hc), fun hc => hf (Or.inl hc)⟩

/-- Witness for C1 at a concrete entry: the Cortex record is kept once and
its id is neither 8 nor 997, and the emitted regions equal spec_regions. -/
theorem C1_regions_dedup_filter_witness :
    fxRegionCTX ∈ (gen_record fxB).regions
    ∧ fxRegionCTX.id ≠ 8 ∧ fxRegionCTX.id ≠ 997
    ∧ (gen_record fxB).regions = spec_regions fxB.matched_locations := by
  refine ⟨by decide, ?_, ?_, (C1_regions_dedup_filter fxB).1⟩
  · exact ((C1_regions_dedup_filter fxB).2.2.2 fxRegionCTX (by decide)).1
  · exact ((C1_regions_dedup_filter fxB).2.2.2 fxRegionCTX (by decide)).2

/-- C2: in either script, every record emitted for a dandiset is built from a
cache entry of that dandiset whose path is lexicographically smallest among
the entries of that dandiset with the same derived subject. -/
theorem C2_canonical_min_path (entries : List CacheEntry)
    (cache : List ((String × String) × CacheEntry)) :
    (∀ p ∈ generate_index entries, ∀ r ∈ p.2,
      ∃ e, e ∈ entries ∧ e.dandiset_id = p.1 ∧ r = gen_record e ∧
        ∀ e2 ∈ entries, e2.dandiset_id = p.1 →
          extract_subject e2.path = extract_subject e.path →
          strLe e.path e2.path = true)
    ∧ (∀ p ∈ rescan_regen cache, ∀ r ∈ p.2,
      ∃ kv, kv ∈ cache ∧ kv.1.1 = p.1 ∧ r = rescan_record kv.2 ∧
        ∀ kv2 ∈ cache, kv2.1.1 = p.1 →
          rescan_extract_subject kv2.2.path = rescan_extract_subject kv.2.path →
          strLe kv.2.path kv2.2.path = true) := by
  constructor
  · intro p hp r hr
    have hp2 : p ∈ buildIndex (fun e => e.dandiset_id) (fun e => extract_subject e.path)
        gen_record (fun r => r.path) id entries := hp
    obtain ⟨x, hx, hxd, hxr, hmin⟩ :=
      buildIndex_canonical (fun e => e.dandiset_id) (fun e => extract_subject e.path)
        gen_record (fun r => r.path) id entries p hp2 r hr
    refine ⟨x, hx, hxd, hxr, ?_⟩
    intro e2 he2 hd2 hs2
    have hb : strLt e2.path x.path = false := hmin e2 he2 hd2 hs2
    simp [strLe, hb]
  · intro p hp r hr
    have hp2 : p ∈ buildIndex (fun kv => kv.1.1)
        (fun kv => rescan_extract_subject kv.2.path) (fun kv => kv.2)
        (fun e => e.path) rescan_record cache := hp
    obtain ⟨x, hx, hxd, hxr, hmin⟩ :=
      buildIndex_canonical (fun kv => kv.1.1)
        (fun kv => rescan_extract_subject kv.2.path) (fun kv => kv.2)
        (fun e => e.path) rescan_record cache p hp2 r hr
    refine ⟨x, hx, hxd, hxr, ?_⟩
    intro kv2 hkv2 hd2 hs2
    have hb : strLt kv2.2.path x.2.path = false := hmin kv2 hkv2 hd2 hs2
    simp [strLe, hb]

/-- Witness for C2 at the spec's own example: among paths sub-01/b.nwb and
sub-01/a.nwb the canonical record is the one with path sub-01/a.nwb. -/
theorem C2_canonical_min_path_witness :
    (("000001", [gen_record fxA]) ∈ generate_index [fxB, fxA])
    ∧ gen_record fxA ∈ [gen_record fxA]
    ∧ (∃ e, e ∈ [fxB, fxA] ∧ e.dandiset_id = "000001" ∧ gen_record fxA = gen_record e ∧
        ∀ e2 ∈ [fxB, fxA], e2.dandiset_id = "000001" →
          extract_subject e2.path = extract_subject e.path →
          strLe e.path e2.path = true) := by
  refine ⟨by decide, by decide, ?_⟩
  exact (C2_canonical_min_path [fxB, fxA] []).1 ("000001", [gen_record fxA]) (by decide)
    (gen_record fxA) (by decide)

/-- Counterexample to C3 as stated: the cache holds an entry of dandiset d
whose derived subject is sub-01, yet the synchronizer still invokes labeling
for subject sub-01, because the skip check keys on the listed asset ids, not
on the cached entries' subjects. -/
theorem C3_counterexample :
    ((load_label_cache (some [LogLine.record fxC0])).any
      (fun kv => decide (kv.1.1 = "d")
        && decide (rescan_extract_subject kv.2.path = "sub-01"))) = true
    ∧ (rescan_main (fun _ => [fxListY]) fxErrLabel
        (some [LogLine.record fxC0])).1.calls = [("d", "sub-01", fxListY)] := by
  exact ⟨by decide, by decide⟩

/-- C3 (amended): the synchronizer skips a subject exactly when one of that
subject's listed assets has its (dandiset_id, asset_id) key in the current
cache table; the subject step is then a no-op: no labeling call and no cache
or log change. -/
theorem C3_skip_on_listed_asset_cached
    (label : String → AssetListing → Except String CacheEntry)
    (ds subj : String) (group : List AssetListing) (st : SyncState)
    (h : group.any (fun a => (alookup (ds, a.asset_id) st.label_cache).isSome) = true) :
    processSubject label ds subj group st = st :=
  processSubject_skip label ds subj group st h

/-- Witness for the amended C3 at a concrete state whose cache holds the
listed asset's key. -/
theorem C3_skip_witness :
    ([fxListY2].any (fun a =>
      (alookup ("d", a.asset_id) fxStCached.label_cache).isSome) = true)
    ∧ processSubject fxErrLabel "d" "sub-01" [fxListY2] fxStCached = fxStCached := by
  refine ⟨by decide, ?_⟩
  exact C3_skip_on_listed_asset_cached fxErrLabel "d" "sub-01" [fxListY2] fxStCached
    (by decide)

/-- Counterexample to C4 as stated: subject sub-01 of the listing has no
cached entry (no cache entry of dandiset d has derived subject sub-01), yet
the synchronizer performs no labeling call at all, because the listed asset's
id coincides with a cached key whose entry belongs to another subject. -/
theorem C4_counterexample :
    ((load_label_cache (some [LogLine.record fxC4])).any
      (fun kv => decide (kv.1.1 = "d")
        && decide (rescan_extract_subject kv.2.path = "sub-01"))) = false
    ∧ rescan_extract_subject fxListY2.path = "sub-01"
    ∧ (rescan_main (fun _ => [fxListY2]) fxErrLabel
        (some [LogLine.record fxC4])).1.calls = [] := by
  exact ⟨by decide, by decide, by decide⟩

/-- C4 (amended): when none of a subject's listed assets has its key in the
cache, the synchronizer invokes the labeling collaborator exactly once for
that subject, on a listed asset of lexicographically smallest path. -/
theorem C4_label_once_min_path
    (label : String → AssetListing → Except String CacheEntry)
    (ds subj : String) (group : List AssetListing) (st : SyncState)
    (hne : group ≠ [])
    (h : group.any (fun a => (alookup (ds, a.asset_id) st.label_cache).isSome) = false) :
    ∃ a, a ∈ group ∧ (∀ b ∈ group, strLe a.path b.path = true) ∧
      (processSubject label ds subj group st).calls = st.calls ++ [(ds, subj, a)] := by
  obtain ⟨a, ha, hmin, hcalls⟩ := processSubject_label_once label ds subj group st hne h
  refine ⟨a, ha, ?_, hcalls⟩
  intro b hb
  simp [strLe, hmin b hb]

/-- Witness for the amended C4: one uncached subject, one call, on its only
(hence minimal) asset. -/
theorem C4_label_once_witness :
    ([fxListY2] ≠ ([] : List AssetListing))
    ∧ ([fxListY2].any (fun a =>
        (alookup ("d", a.asset_id) fxStEmpty.label_cache).isSome) = false)
    ∧ ∃ a, a ∈ [fxListY2] ∧ (∀ b ∈ [fxListY2], strLe a.path b.path = true) ∧
        (processSubject fxErrLabel "d" "sub-01" [fxListY2] fxStEmpty).calls
          = fxStEmpty.calls ++ [("d", "sub-01", a)] := by
  refine ⟨by decide, by decide, ?_⟩
  exact C4_label_once_min_path fxErrLabel "d" "sub-01" [fxListY2] fxStEmpty
    (by decide) (by decide)

/-- Counterexample to C5 as stated: the collaborator always errors, the only
labeling call (for subject sub-01 of dandiset d) therefore fails, yet the
final output index still contains a record whose derived subject is sub-01,
coming from a cached entry whose asset id was absent from the listing. -/
theorem C5_counterexample :
    (rescan_main (fun _ => [fxListY]) fxErrLabel
        (some [LogLine.record fxC0])).1.calls = [("d", "sub-01", fxListY)]
    ∧ fxErrLabel "d" fxListY = Except.error "boom"
    ∧ ((rescan_main (fun _ => [fxListY]) fxErrLabel
        (some [LogLine.record fxC0])).2.any
      (fun p => decide (p.1 = "d")
        && p.2.any (fun r => decide (rescan_extract_subject r.path = "sub-01")))) = true := by
  exact ⟨by decide, rfl, by decide⟩

/-- C5 (amended): if the labeling collaborator errors on a subject's assets,
that subject's step leaves the in-memory table, the appended log and the
new-entry counter unchanged (the fold then simply continues with the next
subject); and a subject with no cache entry in a dandiset has no record for
that dandiset in the regenerated index. -/
theorem C5_failure_isolation
    (label : String → AssetListing → Except String CacheEntry)
    (ds subj : String) (group : List AssetListing) (st : SyncState)
    (cache : List ((String × String) × CacheEntry)) (d subj2 : String)
    (herr : ∀ a ∈ group, ∃ msg, label ds a = Except.error msg)
    (hnosubj : ∀ kv ∈ cache, kv.1.1 = d → rescan_extract_subject kv.2.path ≠ subj2) :
    (processSubject label ds subj group st).label_cache = st.label_cache
    ∧ (processSubject label ds subj group st).appended = st.appended
    ∧ (processSubject label ds subj group st).total_new = st.total_new
    ∧ ∀ p ∈ rescan_regen cache, p.1 = d → ∀ r ∈ p.2,
        rescan_extract_subject r.path ≠ subj2 := by
  obtain ⟨h1, h2, h3⟩ := processSubject_error_state label ds subj group st herr
  exact ⟨h1, h2, h3, rescan_regen_no_subject cache d subj2 hnosubj⟩

/-- Witness for the amended C5 at a concrete failing collaborator and a cache
without the failed subject. -/
theorem C5_failure_isolation_witness :
    (∀ a ∈ [fxListY], ∃ msg, fxErrLabel "d" a = Except.error msg)
    ∧ (∀ kv ∈ fxStWithC4.label_cache, kv.1.1 = "d" →
        rescan_extract_subject kv.2.path ≠ "sub-01")
    ∧ (processSubject fxErrLabel "d" "sub-01" [fxListY] fxStWithC4).label_cache
        = fxStWithC4.label_cache
    ∧ ∀ p ∈ rescan_regen fxStWithC4.label_cache, p.1 = "d" → ∀ r ∈ p.2,
        rescan_extract_subject r.path ≠ "sub-01" := by
  have h := C5_failure_isolation fxErrLabel "d" "sub-01" [fxListY] fxStWithC4
    fxStWithC4.label_cache "d" "sub-01"
    (fun a _ => ⟨"boom", rfl⟩) (by decide)
  exact ⟨fun a _ => ⟨"boom", rfl⟩, by decide, h.1, h.2.2.2⟩

/-- C6: loading the log resolves a duplicated (dandiset_id, asset_id) key to
the last record line bearing it (overwrite, not merge), and the index the
synchronizer regenerates (here with no new entries appended: every listing is
empty) is computed from exactly that loaded table. -/
theorem C6_last_write_wins :
    (∀ (lines : List LogLine) (k : String × String),
      alookup k (load_label_cache (some lines)) = lastRecord k lines)
    ∧ ∀ (label : String → AssetListing → Except String CacheEntry)
        (log : Option (List LogLine)),
        (rescan_main (fun _ => []) label log).2
          = rescan_regen (load_label_cache log) :=
  ⟨fun lines k => load_lookup_lastRecord k lines,
    fun label log => rescan_main_empty_listing label log⟩

/-- C7: the two scripts define the same subject-extraction function; it
returns the first path segment when the path contains a separator, and
otherwise the portion before the first underscore (the whole path when there
is no underscore); the spec's two examples evaluate as stated. -/
theorem C7_subject_extraction :
    (∀ path : String, rescan_extract_subject path = extract_subject path)
    ∧ (∀ path : String, extract_subject path =
        if '/' ∈ path.data then String.mk (path.data.takeWhile (fun c => c != '/'))
        else String.mk (path.data.takeWhile (fun c => c != '_')))
    ∧ extract_subject "sub-01/sample.nwb" = "sub-01"
    ∧ extract_subject "sub-01_ses-02.nwb" = "sub-01" :=
  ⟨fun _ => rfl, extract_subject_spec, by decide, by decide⟩

/-- Counterexample to C8 as stated: the standalone regeneration path fails on
a blank line (json.loads raises) where the synchronizer's load skips it, and
fails on a missing log file where the synchronizer's load returns the empty
mapping. -/
theorem C8_counterexample :
    generate_read (some [LogLine.blank]) = Except.error LoadError.parseError
    ∧ generate_read (some []) = Except.ok []
    ∧ generate_read none = Except.error LoadError.fileNotFound
    ∧ load_label_cache (some [LogLine.blank]) = load_label_cache (some [])
    ∧ load_label_cache none = [] :=
  ⟨rfl, rfl, rfl, rfl, rfl⟩

/-- C8 (amended): the synchronizer's load_label_cache skips blank lines,
parses each remaining line as one entry keyed by (dandiset_id, asset_id), and
returns the empty mapping when the file is missing; the standalone script
instead fails on a missing file and on any blank line. -/
theorem C8_load_blank_and_missing :
    (∀ l1 l2 : List LogLine, load_label_cache (some (l1 ++ LogLine.blank :: l2))
        = load_label_cache (some (l1 ++ l2)))
    ∧ load_label_cache none = []
    ∧ (∀ (l : List LogLine) (e : CacheEntry),
        load_label_cache (some (l ++ [LogLine.record e]))
          = upsert (cacheKey e) e (load_label_cache (some l)))
    ∧ generate_read none = Except.error LoadError.fileNotFound
    ∧ ∀ lines : List LogLine, LogLine.blank ∈ lines →
        generate_read (some lines) = Except.error LoadError.parseError :=
  ⟨load_skip_blank, rfl, load_append_record, rfl, generate_read_blank⟩

/-- Witness for the amended C8: a log consisting of one blank line makes the
standalone read fail. -/
theorem C8_load_blank_and_missing_witness :
    (LogLine.blank ∈ [LogLine.blank])
    ∧ generate_read (some [LogLine.blank]) = Except.error LoadError.parseError := by
  refine ⟨by decide, ?_⟩
  exact C8_load_blank_and_missing.2.2.2.2 [LogLine.blank] (by decide)

/-- C9: in both scripts the output dandiset keys are strictly ascending;
within a dandiset the records are strictly ascending by derived subject, and
the subjects present are exactly the derived subjects of that dandiset's
input entries (hence exactly one record per such subject). -/
theorem C9_output_ordering (entries : List CacheEntry)
    (cache : List ((String × String) × CacheEntry)) :
    (generate_index entries).Pairwise (fun p q => strLt p.1 q.1 = true)
    ∧ (∀ p ∈ generate_index entries,
        p.2.Pairwise (fun r r2 =>
          strLt (extract_subject r.path) (extract_subject r2.path) = true)
        ∧ ∀ s, s ∈ p.2.map (fun r => extract_subject r.path)
            ↔ ∃ e, e ∈ entries ∧ e.dandiset_id = p.1 ∧ extract_subject e.path = s)
    ∧ (rescan_regen cache).Pairwise (fun p q => strLt p.1 q.1 = true)
    ∧ (∀ p ∈ rescan_regen cache,
        p.2.Pairwise (fun r r2 =>
          strLt (rescan_extract_subject r.path) (rescan_extract_subject r2.path) = true)
        ∧ ∀ s, s ∈ p.2.map (fun r => rescan_extract_subject r.path)
            ↔ ∃ kv, kv ∈ cache ∧ kv.1.1 = p.1
                ∧ rescan_extract_subject kv.2.path = s) := by
  refine ⟨?_, ?_, ?_, ?_⟩
  · exact buildIndex_keys_sorted (fun e => e.dandiset_id)
      (fun e => extract_subject e.path) gen_record (fun r => r.path) id entries
  · intro p hp
    have hp2 : p ∈ buildIndex (fun e => e.dandiset_id) (fun e => extract_subject e.path)
        gen_record (fun r => r.path) id entries := hp
    have hsubs := buildIndex_subjects (fun e => e.dandiset_id)
      (fun e => extract_subject e.path) gen_record (fun r => r.path) id
      (fun r => extract_subject r.path) (fun x => rfl) entries p hp2
    constructor
    · have hpw : (p.2.map (fun r => extract_subject r.path)).Pairwise
          (fun a b => strLt a b = true) := by
        rw [hsubs]
        exact sortBy_str_pairwise_strict _ (dedupF_nodup _ [])
      exact List.pairwise_map.mp hpw
    · intro s
      rw [hsubs, mem_sortBy, mem_dedupF]
      simp only [List.mem_map, List.mem_filter, decide_eq_true_eq,
        List.not_mem_nil, not_false_iff, and_true]
      constructor
      · rintro ⟨e, ⟨he, hd⟩, hs⟩
        exact ⟨e, he, hd, hs⟩
      · rintro ⟨e, he, hd, hs⟩
        exact ⟨e, ⟨he, hd⟩, hs⟩
  · exact buildIndex_keys_sorted (fun kv => kv.1.1)
      (fun kv => rescan_extract_subject kv.2.path) (fun kv => kv.2)
      (fun e => e.path) rescan_record cache
  · intro p hp
    have hp2 : p ∈ buildIndex (fun kv => kv.1.1)
        (fun kv => rescan_extract_subject kv.2.path) (fun kv => kv.2)
        (fun e => e.path) rescan_record cache := hp
    have hsubs := buildIndex_subjects (fun kv => kv.1.1)
      (fun kv => rescan_extract_subject kv.2.path) (fun kv => kv.2)
      (fun e => e.path) rescan_record
      (fun r => rescan_extract_subject r.path) (fun kv => rfl) cache p hp2
    constructor
    · have hpw : (p.2.map (fun r => rescan_extract_subject r.path)).Pairwise
          (fun a b => strLt a b = true) := by
        rw [hsubs]
        exact sortBy_str_pairwise_strict _ (dedupF_nodup _ [])
      exact List.pairwise_map.mp hpw
    · intro s
      rw [hsubs, mem_sortBy, mem_dedupF]
      simp only [List.mem_map, List.mem_filter, decide_eq_true_eq,
        List.not_mem_nil, not_false_iff, and_true]
      constructor
      · rintro ⟨kv, ⟨hkv, hd⟩, hs⟩
        exact ⟨kv, hkv, hd, hs⟩
      · rintro ⟨kv, hkv, hd, hs⟩
        exact ⟨kv, ⟨hkv, hd⟩, hs⟩

/-- Witness for C9 at concrete inputs: two subjects come out in ascending
order with exactly one record each, and sub-01 is among the emitted subjects. -/
theorem C9_output_ordering_witness :
    (("000001", [gen_record fxA]) ∈ generate_index [fxB, fxA])
    ∧ ("sub-01" ∈ [gen_record fxA].map (fun r => extract_subject r.path)
        ↔ ∃ e, e ∈ [fxB, fxA] ∧ e.dandiset_id = "000001"
            ∧ extract_subject e.path = "sub-01") := by
  refine ⟨by decide, ?_⟩
  exact ((C9_output_ordering [fxB, fxA] []).2.1 ("000001", [gen_record fxA])
    (by decide)).2 "sub-01"

/-- Counterexample to C10 as stated: on a log where the same key occurs on
two lines with equal paths but different matched_locations, the standalone
script emits the first line's regions while the synchronizer regeneration
emits the last line's, so the two indexes differ. -/
theorem C10_counterexample :
    generate_read (some [LogLine.record fxD1, LogLine.record fxD2])
      = Except.ok [fxD1, fxD2]
    ∧ generate_index [fxD1, fxD2]
      ≠ (rescan_main (fun _ => []) fxErrLabel
          (some [LogLine.record fxD1, LogLine.record fxD2])).2 := by
  exact ⟨rfl, by decide⟩

/-- C10 (amended): over an existing log of record lines whose
(dandiset_id, asset_id) keys are pairwise distinct, the standalone script
parses exactly those entries and its output index equals the index the
synchronizer's final regeneration step produces over the same log with no new
entries appended (empty listings). -/
theorem C10_equiv_on_dupfree_log (entries : List CacheEntry)
    (hnd : (entries.map cacheKey).Nodup) :
    generate_read (some (entries.map LogLine.record)) = Except.ok entries
    ∧ ∀ label : String → AssetListing → Except String CacheEntry,
        (rescan_main (fun _ => []) label (some (entries.map LogLine.record))).2
          = generate_index entries := by
  refine ⟨parseAllLines_records entries, ?_⟩
  intro label
  rw [rescan_main_empty_listing, load_records_nodup entries hnd,
    ← generate_index_eq_rescan_regen]

/-- Witness for the amended C10 on a concrete duplicate-free log. -/
theorem C10_equiv_on_dupfree_log_witness :
    (([fxB, fxA].map cacheKey).Nodup)
    ∧ (rescan_main (fun _ => []) fxErrLabel
        (some ([fxB, fxA].map LogLine.record))).2 = generate_index [fxB, fxA] := by
  refine ⟨by decide, ?_⟩
  exact (C10_equiv_on_dupfree_log [fxB, fxA] (by decide)).2 fxErrLabel
